import Mathlib

/- Shallow embedding of the covid command line tool (package main of
   github.com/m4ns0ur/covid, the pflag variant, plus the identical decode and
   sum logic of covid.go). Case counts are Go int values, modelled as Int: every
   statement below is invariant under the 2^64 wrap of Go addition, because only
   order of records, lengths, and elementwise regrouping of sums are asserted.
   A Go runtime panic (index out of range) and an os.Exit(1) on a failed parse
   are both modelled as Option.none. -/

/-- Go struct record: one CSV row. In Go, lat and long are float32 values; no
claim inspects them, so the raw column text is carried opaquely (whether the two
float columns parse is checked in decode through the af parameter). -/
structure record where
  province : String
  country  : String
  lat      : String
  long     : String
  cases    : List Int
deriving DecidableEq

/-- Go struct data: the header row plus the decoded records. -/
structure data where
  header  : List String
  records : List record
deriving DecidableEq

/-- Element-wise sum of two case vectors (zipWith (+)); all uses below are at
equal lengths. -/
def vecAdd (a b : List Int) : List Int := List.zipWith (· + ·) a b

/-- Element-wise total of the case vectors of a list of records, starting from
the all-zero vector of length L. -/
def sumCases (L : Nat) (rs : List record) : List Int :=
  rs.foldr (fun r acc => vecAdd r.cases acc) (List.replicate L 0)

/-- The inner write loop of Go reduce: for j in [0, len cs), leader[j] += cs[j].
A write past the end of leader is an index-out-of-range panic, modelled as
none. -/
def addCasesInto : List Int → List Int → Option (List Int)
  | ls, [] => some ls
  | l :: ls, c :: cs => (addCasesInto ls cs).map (fun t => (l + c) :: t)
  | [], _ :: _ => none

/-- The order Go sortCountry sorts by: country name in byte order. UTF-8 byte
order agrees with code point order, i.e. with the lexicographic order on the
character list. -/
def countryLe (a b : record) : Prop := a.country.toList ≤ b.country.toList

instance : DecidableRel countryLe := fun _ _ => inferInstanceAs (Decidable (_ ≤ _))

instance : IsTotal record countryLe := ⟨fun _ _ => le_total _ _⟩

instance : IsTrans record countryLe := ⟨fun _ _ _ => le_trans⟩

/-- Go sortCountry: sort.Slice with less comparing country names. sort.Slice is
unstable; a stable insertion sort is one sorted permutation, and every property
proved below is invariant under which sorted permutation an unstable sort
yields. -/
def sortCountryRecs (rs : List record) : List record := List.insertionSort countryLe rs

/-- Go method sortCountry on data (sorts the record slice in place; the value
level result is the dataset with sorted records). -/
def data.sortCountry (d : data) : data := ⟨d.header, sortCountryRecs d.records⟩

/-- One Go write sequence rs[l].cases[j] += cs[j]: the backing array with the
record at position l updated through addCasesInto; position out of range is a
panic. -/
def updCases : List record → Nat → List Int → Option (List record)
  | [], _, _ => none
  | r :: rest, 0, cs => (addCasesInto r.cases cs).map (fun t => { r with cases := t } :: rest)
  | r :: rest, n + 1, cs => (updCases rest n cs).map (fun t => r :: t)

/-- The else branch of the Go reduce loop: l := len(rs)-1 followed by the write
loop into rs[l].cases. idxs holds the positions, inside the sorted backing
array, of the records appended to rs so far; writing through rs[l] writes into
that array (the appended record struct shares its cases slice with the array
entry). With rs empty, l is -1: the write rs[-1] panics unless cs is empty, in
which case the loop body never runs. -/
def mergeInto (arr : List record) (idxs : List Nat) (cs : List Int) : Option (List record) :=
  match idxs.getLast? with
  | some l => updCases arr l cs
  | none => if cs.isEmpty then some arr else none

/-- The Go reduce loop over the sorted records. State: rem is the unprocessed
suffix of the sorted slice, i its starting position, c the country of the last
appended record (initially the empty string), arr the backing array (the source
records after the in-place sort, with every aliased write applied so far), and
idxs the positions of the records appended to rs. Reads of d.records[i] use the
original sorted values, which is faithful because writes only target appended
positions, all < i. -/
def reduceLoop : List record → Nat → String → List record → List Nat →
    Option (List record × List Nat)
  | [], _, _, arr, idxs => some (arr, idxs)
  | r :: rem, i, c, arr, idxs =>
    if r.country = c then
      match mergeInto arr idxs r.cases with
      | some arr2 => reduceLoop rem (i + 1) c arr2 idxs
      | none => none
    else
      reduceLoop rem (i + 1) r.country arr (idxs ++ [i])

/-- Go reduce with its side effect made explicit: the first component is the
dataset the call returns, the second is the source dataset as it stands after
the call. The source ends as the sorted backing array with all aliased writes
applied; the returned records are the appended ones, read back from that
array. -/
def data.reduceEff (d : data) : Option (data × data) :=
  let s := sortCountryRecs d.records
  (reduceLoop s 0 "" s []).map (fun p =>
    (⟨d.header, p.2.filterMap (fun l => p.1[l]?)⟩, ⟨d.header, p.1⟩))

/-- The value Go reduce returns (the view used by the callers in main). -/
def data.reduce (d : data) : Option data := d.reduceEff.map Prod.fst

/-- The source dataset after a call to Go reduce: reduce sorts d.records in
place and, through slice aliasing, accumulates group sums into each first
record of a country group. -/
def data.reduceSrc (d : data) : Option data := d.reduceEff.map Prod.snd

/-- Go filter. strings.EqualFold is an external stdlib collaborator, passed in
as the parameter fold. filter calls d.reduce() and drops the returned value,
then scans d.records — which that call has just mutated in place: sorted by
country, each group leader holding the group sums. When nothing matches, Go
returns the zero record and false. -/
def data.filter (fold : String → String → Bool) (d : data) (c : String) :
    Option (record × Bool) :=
  match d.reduceEff with
  | none => none
  | some (_, after) =>
    match after.records.find? (fun r => fold r.country c) with
    | some r => some (r, true)
    | none => some (⟨"", "", "", "", []⟩, false)

/-- A Go read cases[i] with an Int index: negative or past the end panics. -/
def casesAt (l : List Int) (i : Int) : Option Int :=
  if i < 0 then none else l[i.toNat]?

/-- The summation loop of Go sum at a resolved column index. -/
def sumFold (rs : List record) (i : Int) : Option Int :=
  rs.foldlM (fun s r => (casesAt r.cases i).map (fun v => s + v)) 0

/-- Go sum: a negative day offset c is first resolved against the case count of
the first record (a panic when there are no records), then cases[c] of every
record is added up (a panic when the index is out of range for any record). -/
def data.sum (d : data) (c : Int) : Option Int := do
  let i ← if c < 0 then
      match d.records with
      | [] => none
      | r0 :: _ => some ((r0.cases.length : Int) + c)
    else pure c
  sumFold d.records i

/-- The two totals Go printCases computes before handing off to the
presentation layer: s = sum(-1) and the day delta s - sum(-2). -/
def data.printCasesVals (d : data) : Option (Int × Int) := do
  let s ← d.sum (-1)
  let p ← d.sum (-2)
  pure (s, s - p)

/-- The order Go sort (the descending one) sorts by: the case count at column
k, larger first. A read out of range is rendered with getD; every claim below
restricts to equal-length case vectors, where each such read is in range and
getD returns the true entry. -/
def descLe (k : Nat) (a b : record) : Prop := b.cases.getD k 0 ≤ a.cases.getD k 0

instance (k : Nat) : DecidableRel (descLe k) := fun _ _ => inferInstanceAs (Decidable (_ ≤ _))

instance (k : Nat) : IsTotal record (descLe k) := ⟨fun _ _ => le_total _ _⟩

instance (k : Nat) : IsTrans record (descLe k) := ⟨fun _ _ _ h1 h2 => le_trans h2 h1⟩

/-- Go sort: sort.Slice with less comparing cases[len(d.records[0].cases)-1].
The column index comes from the first record; with no records the comparator is
never invoked. sort.Slice is unstable; a stable insertion sort is one sorted
permutation, and each property proved below holds of any sorted
permutation. -/
def sortDescRecs (rs : List record) : List record :=
  match rs with
  | [] => []
  | r0 :: _ => List.insertionSort (descLe (r0.cases.length - 1)) rs

/-- Go method sort on data (value level result of the in-place sort). -/
def data.sort (d : data) : data := ⟨d.header, sortDescRecs d.records⟩

/-- The top n report loop in main: reduce, sort, then for i in [0, n) read
records[i].country and records[i].cases[len(records[i].cases)-1]. A read past
the end of the record list, or cases[-1] of an empty case vector, is a panic.
The program always runs this with n = 10. -/
def data.topRows (d : data) (n : Nat) : Option (List (String × Int)) := do
  let r ← d.reduce
  let s := sortDescRecs r.records
  (List.range n).mapM (fun i => do
    let rc ← s[i]?
    let v ← rc.cases.getLast?
    pure (rc.country, v))

/-- One data row of Go decode. strconv.Atoi and strconv.ParseFloat are external
stdlib collaborators: ai parses one integer column (none is a fatal parse
failure), af accepts or rejects one float column. Columns 4 .. hlen-1 form the
case vector, columns 0-3 are province, country, lat, long. -/
def decodeRow (ai : String → Option Int) (af : String → Bool) (hlen : Nat)
    (row : List String) : Option record := do
  let cs ← (List.range (hlen - 4)).mapM (fun j => do
    let s ← row[4 + j]?
    ai s)
  let pv ← row[0]?
  let ct ← row[1]?
  let la ← row[2]?
  let lo ← row[3]?
  if af la && af lo then pure ⟨pv, ct, la, lo, cs⟩ else none

/-- Go decode after csv.ReadAll. ReadAll itself reports a fatal error unless
every row has exactly as many fields as the first row, so that check belongs to
this model; rr[0] of an empty table is a panic. The first row is the header and
each following row becomes one record. -/
def decode (ai : String → Option Int) (af : String → Bool)
    (tbl : List (List String)) : Option data :=
  match tbl with
  | [] => none
  | hdr :: rows =>
    if tbl.all (fun row => row.length == hdr.length) then
      (rows.mapM (decodeRow ai af hdr.length)).map (fun recs => ⟨hdr, recs⟩)
    else none

/-- addCasesInto folded over the tail of one country run: the successive writes
into the cases of the run leader. -/
def addSeq (leader : List Int) : List record → Option (List Int)
  | [] => some leader
  | r :: rs =>
    match addCasesInto leader r.cases with
    | some l2 => addSeq l2 rs
    | none => none

/-- Net effect of the Go reduce loop on a sorted record list, once a first
group leader exists: one maximal run of equal countries is peeled at a time.
The leader accumulates the run, the returned list keeps only leaders, and the
backing array keeps the mutated leader followed by the unchanged remainder of
its run. Proved below to agree with reduceLoop on sorted input. -/
def reduceRuns : List record → Option (List record × List record)
  | [] => some ([], [])
  | r :: rest =>
    match addSeq r.cases (rest.takeWhile (fun s => s.country == r.country)) with
    | none => none
    | some cs =>
      match reduceRuns (rest.dropWhile (fun s => s.country == r.country)) with
      | none => none
      | some (out, after) =>
        some ({ r with cases := cs } :: out, ({ r with cases := cs } :: rest.takeWhile (fun s => s.country == r.country)) ++ after)
termination_by l => l.length
decreasing_by
  exact Nat.lt_succ_of_le ((List.dropWhile_sublist _).length_le)

/-- The Go loop state before any record has been appended (c still holds its
initial empty string value). A record with an empty country name never starts a
group: it compares equal to c, and the else branch addresses rs[-1] — a panic,
unless its case vector is empty, in which case the write loop body never runs
and the record is silently skipped. -/
def reduceNone : List record → Option (List record × List record)
  | [] => some ([], [])
  | r :: rest =>
    if r.country = "" then
      if r.cases.isEmpty then (reduceNone rest).map (fun p => (p.1, r :: p.2)) else none
    else reduceRuns (r :: rest)

/-- The four fields of a record other than its case vector: everything the Go
reduce loop never writes to. -/
def recShape (r : record) : String × String × String × String :=
  (r.province, r.country, r.lat, r.long)

/-- ASCII lower casing of one character. -/
def lowerAscii (c : Char) : Char :=
  if 'A' ≤ c ∧ c ≤ 'Z' then Char.ofNat (c.toNat + 32) else c

/-- A concrete instance of the strings.EqualFold collaborator, used in
witnesses: ASCII case-insensitive equality. -/
def eqFoldAscii (a b : String) : Bool := a.toList.map lowerAscii == b.toList.map lowerAscii

/-- A concrete instance of the strconv.Atoi collaborator, used in witnesses: an
optional sign followed by at least one decimal digit (the int64 range check of
Atoi is irrelevant at the small witness inputs). -/
def digitsToNat (ds : List Char) : Option Nat :=
  if ds.isEmpty then none
  else ds.foldlM (fun acc c => if c.isDigit then some (acc * 10 + (c.toNat - 48)) else none) 0

def atoi (s : String) : Option Int :=
  match s.toList with
  | '+' :: ds => (digitsToNat ds).map (fun n => (n : Int))
  | '-' :: ds => (digitsToNat ds).map (fun n => -(n : Int))
  | ds => (digitsToNat ds).map (fun n => (n : Int))

/- Basic facts about the element-wise vector operations. -/

theorem vecAdd_nil_left (b : List Int) : vecAdd [] b = [] := rfl

theorem vecAdd_nil_right (a : List Int) : vecAdd a [] = [] := by
  cases a <;> rfl

theorem vecAdd_cons (x : Int) (xs : List Int) (y : Int) (ys : List Int) :
    vecAdd (x :: xs) (y :: ys) = (x + y) :: vecAdd xs ys := rfl

theorem vecAdd_length (a b : List Int) : (vecAdd a b).length = min a.length b.length := by
  simp [vecAdd]

theorem vecAdd_replicate (a : List Int) : vecAdd a (List.replicate a.length 0) = a := by
  induction a with
  | nil => rfl
  | cons x xs ih => simp [List.replicate_succ, vecAdd_cons, ih]

theorem vecAdd_replicate_left (b : List Int) : vecAdd (List.replicate b.length 0) b = b := by
  induction b with
  | nil => rfl
  | cons y ys ih => simp [List.replicate_succ, vecAdd_cons, ih]

theorem vecAdd_assoc (a b c : List Int) : vecAdd (vecAdd a b) c = vecAdd a (vecAdd b c) := by
  induction a generalizing b c with
  | nil => simp [vecAdd_nil_left]
  | cons x xs ih =>
    cases b with
    | nil => simp [vecAdd_nil_left, vecAdd_nil_right]
    | cons y ys =>
      cases c with
      | nil => simp [vecAdd_nil_right]
      | cons z zs => simp [vecAdd_cons, ih, add_assoc]

theorem vecAdd_left_comm (a b c : List Int) :
    vecAdd a (vecAdd b c) = vecAdd b (vecAdd a c) := by
  induction a generalizing b c with
  | nil => cases b <;> simp [vecAdd_nil_left, vecAdd_nil_right]
  | cons x xs ih =>
    cases b with
    | nil => simp [vecAdd_nil_left, vecAdd_nil_right]
    | cons y ys =>
      cases c with
      | nil => simp [vecAdd_nil_right]
      | cons z zs => simp [vecAdd_cons, ih, add_left_comm]

theorem sumCases_nil (L : Nat) : sumCases L [] = List.replicate L 0 := rfl

theorem sumCases_cons (L : Nat) (r : record) (rs : List record) :
    sumCases L (r :: rs) = vecAdd r.cases (sumCases L rs) := rfl

theorem sumCases_length (L : Nat) (rs : List record)
    (hL : ∀ r ∈ rs, r.cases.length = L) : (sumCases L rs).length = L := by
  induction rs with
  | nil => simp [sumCases_nil]
  | cons r rs ih =>
    have hr : r.cases.length = L := hL r (by simp)
    have ht : (sumCases L rs).length = L := ih (fun s hs => hL s (by simp [hs]))
    simp [sumCases_cons, vecAdd_length, hr, ht]

instance : LeftCommutative (fun (r : record) acc => vecAdd r.cases acc) :=
  ⟨fun a b l => vecAdd_left_comm a.cases b.cases l⟩

theorem sumCases_perm (L : Nat) {rs1 rs2 : List record} (h : rs1.Perm rs2) :
    sumCases L rs1 = sumCases L rs2 :=
  h.foldr_eq _

theorem sumCases_append (L : Nat) (xs ys : List record)
    (hx : ∀ r ∈ xs, r.cases.length = L) (hy : ∀ r ∈ ys, r.cases.length = L) :
    sumCases L (xs ++ ys) = vecAdd (sumCases L xs) (sumCases L ys) := by
  induction xs with
  | nil =>
    have : (sumCases L ys).length = L := sumCases_length L ys hy
    simp [sumCases_nil]
    rw [show List.replicate L (0 : Int) = List.replicate (sumCases L ys).length 0 by rw [this]]
    exact (vecAdd_replicate_left _).symm
  | cons r xs ih =>
    have hr : ∀ s ∈ xs, s.cases.length = L := fun s hs => hx s (by simp [hs])
    simp [List.cons_append, sumCases_cons, ih hr, vecAdd_assoc]

theorem addCasesInto_eq (a b : List Int) (h : b.length ≤ a.length) :
    addCasesInto a b = some (vecAdd a b ++ a.drop b.length) := by
  induction b generalizing a with
  | nil => simp [addCasesInto, vecAdd_nil_right]
  | cons y ys ih =>
    cases a with
    | nil => simp at h
    | cons x xs =>
      have hx : ys.length ≤ xs.length := by simpa using h
      simp [addCasesInto, ih xs hx, vecAdd_cons]

theorem addCasesInto_eq_of_length (a b : List Int) (h : b.length = a.length) :
    addCasesInto a b = some (vecAdd a b) := by
  rw [addCasesInto_eq a b (le_of_eq h), h, List.drop_length, List.append_nil]

theorem addCasesInto_length {a b t : List Int} (h : addCasesInto a b = some t) :
    t.length = a.length := by
  induction b generalizing a t with
  | nil => simp [addCasesInto] at h; simp [← h]
  | cons y ys ih =>
    cases a with
    | nil => simp [addCasesInto] at h
    | cons x xs =>
      simp [addCasesInto] at h
      obtain ⟨u, hu, ht⟩ := h
      simp [← ht, ih hu]

theorem addSeq_eq (L : Nat) (a : List Int) (run : List record)
    (hA : a.length = L) (hrun : ∀ r ∈ run, r.cases.length = L) :
    addSeq a run = some (vecAdd a (sumCases L run)) := by
  induction run generalizing a with
  | nil =>
    subst hA
    simp [addSeq, sumCases_nil, vecAdd_replicate]
  | cons r rs ih =>
    have hr : r.cases.length = L := hrun r (by simp)
    have hAdd : addCasesInto a r.cases = some (vecAdd a r.cases) :=
      addCasesInto_eq_of_length a r.cases (by rw [hr, hA])
    have hlen : (vecAdd a r.cases).length = L := by
      simp [vecAdd_length, hA, hr]
    have hrest : ∀ s ∈ rs, s.cases.length = L := fun s hs => hrun s (by simp [hs])
    simp [addSeq, hAdd, ih _ hlen hrest, sumCases_cons, vecAdd_assoc]

theorem addSeq_length {a t : List Int} {run : List record}
    (h : addSeq a run = some t) : t.length = a.length := by
  induction run generalizing a t with
  | nil => simp [addSeq] at h; simp [← h]
  | cons r rs ih =>
    simp only [addSeq] at h
    cases hA : addCasesInto a r.cases with
    | none => simp [hA] at h
    | some u =>
      simp [hA] at h
      have := ih h
      rw [this, addCasesInto_length hA]

/- Facts about the country sort and the country order. -/

theorem sortCountryRecs_sorted (rs : List record) :
    (sortCountryRecs rs).Pairwise countryLe :=
  List.sorted_insertionSort countryLe rs

theorem sortCountryRecs_perm (rs : List record) : (sortCountryRecs rs).Perm rs :=
  List.perm_insertionSort countryLe rs

theorem country_toList_lt {a b : record} (h : countryLe a b)
    (hne : a.country ≠ b.country) : a.country.toList < b.country.toList :=
  lt_of_le_of_ne h (fun he => hne (String.toList_inj.mp he))

theorem country_ne_empty_of_le {a b : record} (ha : a.country ≠ "") (h : countryLe a b) :
    b.country ≠ "" := by
  intro hb
  apply ha
  apply String.toList_inj.mp
  have hb' : b.country.toList = [] := by rw [hb]; rfl
  have hle : a.country.toList ≤ ([] : List Char) := by rw [← hb']; exact h
  exact le_antisymm hle List.nil_le

theorem lt_all_dropWhile {r : record} {rest : List record}
    (hp : rest.Pairwise countryLe) (hlb : ∀ s ∈ rest, countryLe r s) :
    ∀ s ∈ rest.dropWhile (fun s => s.country == r.country),
      r.country.toList < s.country.toList := by
  cases hd : rest.dropWhile (fun s => s.country == r.country) with
  | nil => simp
  | cons h t =>
    have hsub : (h :: t).Sublist rest := hd ▸ List.dropWhile_sublist _
    have hmem : ∀ x ∈ h :: t, x ∈ rest := fun x hx => hsub.subset hx
    have hph : (h.country == r.country) = false := by
      have hh := List.head?_dropWhile_not (fun s => s.country == r.country) rest
      rw [hd] at hh
      simpa using hh
    have hhne : r.country ≠ h.country := by
      intro he
      rw [he] at hph
      simp at hph
    have hlt : r.country.toList < h.country.toList :=
      country_toList_lt (hlb h (hmem h (by simp))) hhne
    have hpt : (h :: t).Pairwise countryLe := hp.sublist hsub
    intro s hsm
    rcases List.mem_cons.mp hsm with he | ht
    · subst he; exact hlt
    · exact lt_of_lt_of_le hlt ((List.pairwise_cons.mp hpt).1 s ht)

/- Characterization of the run-at-a-time reduction on sorted input. -/

theorem reduceRuns_char (L : Nat) : ∀ (n : Nat) (rs : List record), rs.length ≤ n →
    rs.Pairwise countryLe → (∀ r ∈ rs, r.cases.length = L) →
    ∃ out after, reduceRuns rs = some (out, after) ∧
      ((out.map (fun r => r.country)).Pairwise (fun a b => a.toList < b.toList)) ∧
      (∀ c, c ∈ out.map (fun r => r.country) ↔ c ∈ rs.map (fun r => r.country)) ∧
      (∀ r ∈ out, r.cases = sumCases L (rs.filter (fun s => s.country == r.country)) ∧
        r.cases.length = L) ∧
      sumCases L out = sumCases L rs := by
  intro n
  induction n with
  | zero =>
    intro rs hlen _ _
    have hnil : rs = [] := List.length_eq_zero.mp (Nat.le_zero.mp hlen)
    subst hnil
    exact ⟨[], [], by simp [reduceRuns], by simp, by simp, by simp, rfl⟩
  | succ n ih =>
    intro rs hlen hs hL
    cases rs with
    | nil => exact ⟨[], [], by simp [reduceRuns], by simp, by simp, by simp, rfl⟩
    | cons r rest =>
      have hLr : r.cases.length = L := hL r (by simp)
      have hLrest : ∀ s ∈ rest, s.cases.length = L := fun s hs' => hL s (by simp [hs'])
      have hpair_rest : rest.Pairwise countryLe := (List.pairwise_cons.mp hs).2
      have hlb : ∀ s ∈ rest, countryLe r s := (List.pairwise_cons.mp hs).1
      have hruncountry : ∀ s ∈ rest.takeWhile (fun s => s.country == r.country),
          s.country = r.country := by
        intro s hsm
        have := List.mem_takeWhile_imp hsm
        simpa using this
      have hrunmem : ∀ s ∈ rest.takeWhile (fun s => s.country == r.country), s ∈ rest :=
        fun s hsm => (List.takeWhile_sublist _).subset hsm
      have hLrun : ∀ s ∈ rest.takeWhile (fun s => s.country == r.country),
          s.cases.length = L := fun s hsm => hLrest s (hrunmem s hsm)
      have hrest2mem : ∀ s ∈ rest.dropWhile (fun s => s.country == r.country), s ∈ rest :=
        fun s hsm => (List.dropWhile_sublist _).subset hsm
      have hLrest2 : ∀ s ∈ rest.dropWhile (fun s => s.country == r.country),
          s.cases.length = L := fun s hsm => hLrest s (hrest2mem s hsm)
      have hrest2sorted : (rest.dropWhile (fun s => s.country == r.country)).Pairwise countryLe :=
        hpair_rest.sublist (List.dropWhile_sublist _)
      have hlt2 : ∀ s ∈ rest.dropWhile (fun s => s.country == r.country),
          r.country.toList < s.country.toList := lt_all_dropWhile hpair_rest hlb
      have hne2 : ∀ s ∈ rest.dropWhile (fun s => s.country == r.country),
          s.country ≠ r.country := by
        intro s hsm he
        have := hlt2 s hsm
        rw [he] at this
        exact lt_irrefl _ this
      have hlen2 : (rest.dropWhile (fun s => s.country == r.country)).length ≤ n := by
        have h1 : (rest.dropWhile (fun s => s.country == r.country)).length ≤ rest.length :=
          (List.dropWhile_sublist _).length_le
        have h2 : rest.length ≤ n := by simpa using Nat.le_of_succ_le_succ hlen
        exact le_trans h1 h2
      obtain ⟨out2, after2, hred2, hpair2, hmem2, hcase2, hmass2⟩ :=
        ih (rest.dropWhile (fun s => s.country == r.country)) hlen2 hrest2sorted hLrest2
      have haddSeq : addSeq r.cases (rest.takeWhile (fun s => s.country == r.country)) =
          some (vecAdd r.cases (sumCases L (rest.takeWhile (fun s => s.country == r.country)))) :=
        addSeq_eq L r.cases _ hLr hLrun
      have hsplit : rest.takeWhile (fun s => s.country == r.country) ++
          rest.dropWhile (fun s => s.country == r.country) = rest :=
        List.takeWhile_append_dropWhile _ _
      refine ⟨{ r with cases := vecAdd r.cases (sumCases L (rest.takeWhile (fun s => s.country == r.country))) } :: out2, ({ r with cases := vecAdd r.cases (sumCases L (rest.takeWhile (fun s => s.country == r.country))) } :: rest.takeWhile (fun s => s.country == r.country)) ++ after2, ?_, ?_, ?_, ?_, ?_⟩
      · simp only [reduceRuns]
        rw [haddSeq, hred2]
      · simp only [List.map_cons]
        rw [List.pairwise_cons]
        constructor
        · intro c hc
          simp only [List.mem_map] at hc
          obtain ⟨s, hsm, hse⟩ := hc
          have : s.country ∈ (rest.dropWhile (fun s => s.country == r.country)).map
              (fun r => r.country) := (hmem2 s.country).mp (List.mem_map.mpr ⟨s, hsm, rfl⟩)
          simp only [List.mem_map] at this
          obtain ⟨t, htm, hte⟩ := this
          subst hse
          rw [← hte]
          exact hlt2 t htm
        · exact hpair2
      · intro c
        simp only [List.map_cons, List.mem_cons]
        constructor
        · rintro (he | hc)
          · exact Or.inl he
          · right
            have := (hmem2 c).mp hc
            rw [← hsplit, List.map_append]
            exact List.mem_append_right _ this
        · rintro (he | hc)
          · exact Or.inl he
          · rw [← hsplit, List.map_append] at hc
            rcases List.mem_append.mp hc with hc1 | hc2
            · left
              simp only [List.mem_map] at hc1
              obtain ⟨s, hsm, hse⟩ := hc1
              rw [← hse]
              exact hruncountry s hsm
            · exact Or.inr ((hmem2 c).mpr hc2)
      · intro r' hr'
        rcases List.mem_cons.mp hr' with he | hm
        · subst he
          constructor
          · have hfr : (r.country == r.country) = true := by simp
            have hfilter : (r :: rest).filter (fun s => s.country == r.country) =
                r :: rest.takeWhile (fun s => s.country == r.country) := by
              rw [List.filter_cons]
              simp only [hfr, if_pos trivial]
              congr 1
              conv_lhs => rw [← hsplit]
              rw [List.filter_append]
              have h1 : (rest.takeWhile (fun s => s.country == r.country)).filter
                  (fun s => s.country == r.country) =
                  rest.takeWhile (fun s => s.country == r.country) :=
                List.filter_eq_self.mpr (fun s hsm => by simp [hruncountry s hsm])
              have h2 : (rest.dropWhile (fun s => s.country == r.country)).filter
                  (fun s => s.country == r.country) = [] := by
                apply List.filter_eq_nil_iff.mpr
                intro s hsm
                simp [hne2 s hsm]
              rw [h1, h2, List.append_nil]
            simp only [hfilter, sumCases_cons]
          · simp [vecAdd_length, hLr, sumCases_length L _ hLrun]
        · -- r' comes from the recursive output
          have hr'c : r'.country ∈ (rest.dropWhile (fun s => s.country == r.country)).map
              (fun s => s.country) :=
            (hmem2 r'.country).mp (List.mem_map.mpr ⟨r', hm, rfl⟩)
          have hr'ne : r.country ≠ r'.country := by
            simp only [List.mem_map] at hr'c
            obtain ⟨t, htm, hte⟩ := hr'c
            intro he
            have := hlt2 t htm
            rw [he, hte] at this
            exact lt_irrefl _ this
          have hfilter : (r :: rest).filter (fun s => s.country == r'.country) =
              (rest.dropWhile (fun s => s.country == r.country)).filter
                (fun s => s.country == r'.country) := by
            have hcf : (r.country == r'.country) = false := by
              simpa using hr'ne
            rw [List.filter_cons]
            simp only [hcf, Bool.false_eq_true, if_false]
            conv_lhs => rw [← hsplit]
            rw [List.filter_append]
            have h1 : (rest.takeWhile (fun s => s.country == r.country)).filter
                (fun s => s.country == r'.country) = [] := by
              apply List.filter_eq_nil_iff.mpr
              intro s hsm
              have := hruncountry s hsm
              simp [this]
              intro he
              exact hr'ne he
            rw [h1, List.nil_append]
          rw [hfilter]
          exact hcase2 r' hm
      · simp only [sumCases_cons]
        rw [hmass2, vecAdd_assoc, ← sumCases_append L _ _ hLrun hLrest2, hsplit]

/- Facts about the write primitive and the machine loop. -/

theorem list_set_of_getElem {α : Type _} {arr : List α} {l : Nat} {x : α}
    (h : arr[l]? = some x) : arr.set l x = arr := by
  induction arr generalizing l with
  | nil => simp at h
  | cons a as ih =>
    cases l with
    | zero =>
      simp only [List.getElem?_cons_zero, Option.some_inj] at h
      simp [h]
    | succ n =>
      simp only [List.getElem?_cons_succ] at h
      simp [ih h]

theorem updCases_eq (arr : List record) (l : Nat) (cs : List Int) :
    updCases arr l cs =
      match arr[l]? with
      | none => none
      | some r => (addCasesInto r.cases cs).map (fun t => arr.set l { r with cases := t }) := by
  induction arr generalizing l with
  | nil => cases l <;> simp [updCases]
  | cons r rest ih =>
    cases l with
    | zero =>
      simp only [updCases, List.getElem?_cons_zero]
      cases addCasesInto r.cases cs with
      | none => simp
      | some t => simp
    | succ n =>
      cases hn : rest[n]? with
      | none =>
        have h2 : updCases rest n cs = none := by rw [ih n, hn]
        simp [updCases, h2, List.getElem?_cons_succ, hn]
      | some rr =>
        have h2 : updCases rest n cs =
            (addCasesInto rr.cases cs).map (fun t => rest.set n { rr with cases := t }) := by
          rw [ih n, hn]
        simp only [updCases, h2, List.getElem?_cons_succ, hn]
        cases addCasesInto rr.cases cs with
        | none => rfl
        | some t => rfl

theorem take_length_takeWhile {α : Type _} (p : α → Bool) (l : List α) :
    l.take (l.takeWhile p).length = l.takeWhile p := by
  induction l with
  | nil => rfl
  | cons a l ih =>
    by_cases h : p a = true
    · rw [List.takeWhile_cons_of_pos h, List.length_cons, List.take_succ_cons, ih]
    · rw [List.takeWhile_cons_of_neg h]
      rfl

/- The machine loop agrees with the run-at-a-time description on sorted input.
   The state invariant: arr holds the processed prefix (with all writes) and the
   untouched suffix rem from position i on; l is the position of the current
   group leader rl; idxs are the positions of all appended records, every write
   so far targeted positions in idxs, all < i, with the current leader last. -/

theorem reduceLoop_runs :
    ∀ (rem : List record) (i : Nat) (c : String) (arr : List record) (idxs : List Nat)
      (l : Nat) (rl : record),
      arr.drop i = rem →
      idxs.getLast? = some l →
      arr[l]? = some rl →
      rl.country = c →
      l < i →
      (∀ j ∈ idxs, j < i) →
      (∀ j ∈ idxs.dropLast, j < l) →
      rem.Pairwise countryLe →
      (∀ r ∈ rem, countryLe rl r) →
      (match addSeq rl.cases (rem.takeWhile (fun s => s.country == c)) with
       | none => reduceLoop rem i c arr idxs = none
       | some cs =>
         match reduceRuns (rem.dropWhile (fun s => s.country == c)) with
         | none => reduceLoop rem i c arr idxs = none
         | some (out, after) =>
           ∃ idxs2,
             reduceLoop rem i c arr idxs =
               some ((arr.set l { rl with cases := cs }).take
                   (i + (rem.takeWhile (fun s => s.country == c)).length) ++ after, idxs2) ∧
             idxs2.filterMap (fun j =>
                 ((arr.set l { rl with cases := cs }).take
                   (i + (rem.takeWhile (fun s => s.country == c)).length) ++ after)[j]?) =
               idxs.dropLast.filterMap (fun j => arr[j]?) ++ ({ rl with cases := cs } :: out)) := by
  intro rem
  induction rem with
  | nil =>
    intro i c arr idxs l rl hdrop hlast hget hc hli hidx hdl hsorted hlb
    have hrr : reduceRuns ([] : List record) = some ([], []) := by simp [reduceRuns]
    simp only [List.takeWhile_nil, List.dropWhile_nil, addSeq, hrr, List.length_nil,
      Nat.add_zero, List.append_nil]
    have heta : ({ rl with cases := rl.cases } : record) = rl := rfl
    have harr : arr.set l { rl with cases := rl.cases } = arr := by
      rw [heta]
      exact list_set_of_getElem hget
    have hlen : arr.length ≤ i := List.drop_eq_nil_iff.mp (by simp [hdrop])
    have htake : (arr.set l { rl with cases := rl.cases }).take i = arr := by
      rw [harr]
      exact List.take_of_length_le hlen
    refine ⟨idxs, ?_, ?_⟩
    · rw [htake]
      rfl
    · rw [htake, heta]
      conv_lhs => rw [← List.dropLast_append_getLast? l hlast]
      rw [List.filterMap_append]
      simp [hget]
  | cons r rem' ih =>
    intro i c arr idxs l rl hdrop hlast hget hc hli hidx hdl hsorted hlb
    have hlen_i : i < arr.length := by
      by_contra hcon
      push_neg at hcon
      rw [List.drop_eq_nil_iff.mpr hcon] at hdrop
      exact absurd hdrop (by simp)
    have hl_len : l < arr.length := lt_trans hli hlen_i
    have hget_i : arr[i]? = some r := by
      have h0 := List.getElem?_drop arr i 0
      rw [hdrop] at h0
      simpa using h0.symm
    have hdrop' : arr.drop (i + 1) = rem' := by
      have h1 : arr.drop (i + 1) = (arr.drop i).drop 1 := by rw [List.drop_drop, Nat.add_comm]
      rw [h1, hdrop]
      rfl
    have hsorted' : rem'.Pairwise countryLe := (List.pairwise_cons.mp hsorted).2
    by_cases hcc : r.country = c
    · -- same country: the write branch
      have hpr : ((fun s => s.country == c) r) = true := by simp [hcc]
      have hmerge : mergeInto arr idxs r.cases =
          (addCasesInto rl.cases r.cases).map (fun t => arr.set l { rl with cases := t }) := by
        simp [mergeInto, hlast, updCases_eq, hget]
      cases haddc : addCasesInto rl.cases r.cases with
      | none =>
        have hm0 : mergeInto arr idxs r.cases = none := by rw [hmerge, haddc]; rfl
        have hnone : reduceLoop (r :: rem') i c arr idxs = none := by
          simp only [reduceLoop, if_pos hcc, hm0]
        have htw : List.takeWhile (fun s => s.country == c) (r :: rem') =
            r :: List.takeWhile (fun s => s.country == c) rem' :=
          @List.takeWhile_cons_of_pos record (fun s => s.country == c) r rem' hpr
        rw [htw]
        simp only [addSeq, haddc]
        exact hnone
      | some l2 =>
        have hm0 : mergeInto arr idxs r.cases = some (arr.set l { rl with cases := l2 }) := by
          rw [hmerge, haddc]
          rfl
        have hmach : reduceLoop (r :: rem') i c arr idxs =
            reduceLoop rem' (i + 1) c (arr.set l { rl with cases := l2 }) idxs := by
          simp only [reduceLoop, if_pos hcc, hm0]
        have hdrop2 : (arr.set l { rl with cases := l2 }).drop (i + 1) = rem' := by
          rw [List.drop_set]
          rw [if_pos (by omega)]
          exact hdrop'
        have hget2 : (arr.set l { rl with cases := l2 })[l]? =
            some { rl with cases := l2 } :=
          List.getElem?_set_self hl_len
        have hlb2 : ∀ s ∈ rem', countryLe { rl with cases := l2 } s :=
          fun s hs => hlb s (by simp [hs])
        have hspec := ih (i + 1) c (arr.set l { rl with cases := l2 }) idxs l
          { rl with cases := l2 } hdrop2 hlast hget2 hc (by omega)
          (fun j hj => lt_trans (hidx j hj) (by omega)) hdl hsorted' hlb2
        have htw : List.takeWhile (fun s => s.country == c) (r :: rem') =
            r :: List.takeWhile (fun s => s.country == c) rem' :=
          @List.takeWhile_cons_of_pos record (fun s => s.country == c) r rem' hpr
        have hdw : List.dropWhile (fun s => s.country == c) (r :: rem') =
            List.dropWhile (fun s => s.country == c) rem' :=
          @List.dropWhile_cons_of_pos record (fun s => s.country == c) r rem' hpr
        rw [htw, hdw]
        simp only [addSeq, haddc, List.length_cons]
        cases hseq : addSeq l2 (rem'.takeWhile (fun s => s.country == c)) with
        | none =>
          rw [hseq] at hspec
          rw [hmach]
          exact hspec
        | some cs =>
          rw [hseq] at hspec
          cases hrr : reduceRuns (rem'.dropWhile (fun s => s.country == c)) with
          | none =>
            rw [hrr] at hspec
            rw [hmach]
            exact hspec
          | some p =>
            obtain ⟨out, after⟩ := p
            rw [hrr] at hspec
            obtain ⟨idxs2, hm2, hr2⟩ := hspec
            have hsetset : (arr.set l { rl with cases := l2 }).set l { rl with cases := cs } =
                arr.set l { rl with cases := cs } := List.set_set _ _ _ _
            have hidxeq : i + 1 + (rem'.takeWhile (fun s => s.country == c)).length =
                i + ((rem'.takeWhile (fun s => s.country == c)).length + 1) := by omega
            refine ⟨idxs2, ?_, ?_⟩
            · rw [hmach, hm2, hsetset, hidxeq]
            · rw [← hidxeq, ← hsetset]
              rw [hr2]
              congr 1
              apply List.filterMap_congr
              intro j hj
              have hjl : j < l := hdl j hj
              exact List.getElem?_set_ne (by omega)
    · -- new country: the append branch
      have hpr : ¬ ((fun s => s.country == c) r) = true := by simp [hcc]
      have hmach : reduceLoop (r :: rem') i c arr idxs =
          reduceLoop rem' (i + 1) r.country arr (idxs ++ [i]) := by
        simp only [reduceLoop, if_neg hcc]
      have hlb' : ∀ s ∈ rem', countryLe r s := (List.pairwise_cons.mp hsorted).1
      have hspec := ih (i + 1) r.country arr (idxs ++ [i]) i r hdrop'
        (List.getLast?_concat idxs) hget_i rfl (by omega)
        (by
          intro j hj
          rcases List.mem_append.mp hj with h1 | h2
          · exact lt_trans (hidx j h1) (by omega)
          · simp at h2
            omega)
        (by
          rw [List.dropLast_concat]
          exact hidx)
        hsorted' hlb'
      have heta : ({ rl with cases := rl.cases } : record) = rl := rfl
      have harr : arr.set l { rl with cases := rl.cases } = arr := by
        rw [heta]
        exact list_set_of_getElem hget
      have hreq : reduceRuns (r :: rem') =
          match addSeq r.cases (rem'.takeWhile (fun s => s.country == r.country)) with
          | none => none
          | some cs =>
            match reduceRuns (rem'.dropWhile (fun s => s.country == r.country)) with
            | none => none
            | some (out, after) =>
              some ({ r with cases := cs } :: out,
                ({ r with cases := cs } :: rem'.takeWhile (fun s => s.country == r.country)) ++ after) := by
        simp only [reduceRuns]
      have htw : List.takeWhile (fun s => s.country == c) (r :: rem') = [] :=
        @List.takeWhile_cons_of_neg record (fun s => s.country == c) r rem' hpr
      have hdw : List.dropWhile (fun s => s.country == c) (r :: rem') = r :: rem' :=
        @List.dropWhile_cons_of_neg record (fun s => s.country == c) r rem' hpr
      rw [htw, hdw]
      simp only [addSeq, List.length_nil, Nat.add_zero, harr, hreq]
      cases hseq : addSeq r.cases (rem'.takeWhile (fun s => s.country == r.country)) with
      | none =>
        rw [hseq] at hspec
        rw [hmach]
        exact hspec
      | some cs' =>
        rw [hseq] at hspec
        cases hrr : reduceRuns (rem'.dropWhile (fun s => s.country == r.country)) with
        | none =>
          rw [hrr] at hspec
          rw [hmach]
          exact hspec
        | some p =>
          obtain ⟨out', after'⟩ := p
          rw [hrr] at hspec
          obtain ⟨idxs2, hm2, hr2⟩ := hspec
          have hdecomp : arr = arr.take i ++ r :: rem' := by
            conv_lhs => rw [← List.take_append_drop i arr]
            rw [hdrop]
          have htakelen : (arr.take i).length = i := by
            rw [List.length_take]
            omega
          have hset_i : arr.set i { r with cases := cs' } =
              arr.take i ++ { r with cases := cs' } :: rem' := by
            conv_lhs => rw [hdecomp]
            rw [List.set_append_right _ _ (le_of_eq htakelen)]
            rw [htakelen, Nat.sub_self]
            rfl
          have htake_eq : (arr.set i { r with cases := cs' }).take
              (i + 1 + (rem'.takeWhile (fun s => s.country == r.country)).length) =
              arr.take i ++ { r with cases := cs' } ::
                rem'.takeWhile (fun s => s.country == r.country) := by
            rw [hset_i]
            have h1 : i + 1 + (rem'.takeWhile (fun s => s.country == r.country)).length =
                (arr.take i).length +
                  (1 + (rem'.takeWhile (fun s => s.country == r.country)).length) := by
              rw [htakelen]
              omega
            rw [h1, List.take_append]
            congr 1
            have h2 : (1 + (rem'.takeWhile (fun s => s.country == r.country)).length) =
                (rem'.takeWhile (fun s => s.country == r.country)).length + 1 := by omega
            rw [h2, List.take_succ_cons]
            congr 1
            exact take_length_takeWhile _ rem'
          have harr2 : (arr.set i { r with cases := cs' }).take
              (i + 1 + (rem'.takeWhile (fun s => s.country == r.country)).length) ++ after' =
              arr.take i ++ (({ r with cases := cs' } ::
                rem'.takeWhile (fun s => s.country == r.country)) ++ after') := by
            rw [htake_eq, List.append_assoc]
          refine ⟨idxs2, ?_, ?_⟩
          · rw [hmach, hm2, harr2]
          · rw [← harr2, hr2]
            have hreadold : (idxs ++ [i]).dropLast.filterMap (fun j => arr[j]?) =
                idxs.filterMap (fun j => arr[j]?) := by
              rw [List.dropLast_concat]
            rw [hreadold]
            conv_lhs => rw [← List.dropLast_append_getLast? l hlast]
            rw [List.filterMap_append]
            simp [hget]

/- The machine loop from its initial state (nothing appended, c = "") agrees
   with reduceNone on sorted input. -/

theorem reduceLoop_none_state :
    ∀ (rem : List record) (i : Nat) (arr : List record),
      arr.drop i = rem →
      rem.Pairwise countryLe →
      (match reduceNone rem with
       | none => reduceLoop rem i "" arr [] = none
       | some (out, after) =>
         ∃ idxs2, reduceLoop rem i "" arr [] = some (arr.take i ++ after, idxs2) ∧
           idxs2.filterMap (fun j => (arr.take i ++ after)[j]?) = out) := by
  intro rem
  induction rem with
  | nil =>
    intro i arr hdrop _
    have hlen : arr.length ≤ i := List.drop_eq_nil_iff.mp (by simp [hdrop])
    simp only [reduceNone]
    exact ⟨[], by simp [reduceLoop, List.take_of_length_le hlen], by simp⟩
  | cons r rem' ih =>
    intro i arr hdrop hsorted
    have hlen_i : i < arr.length := by
      by_contra hcon
      push_neg at hcon
      rw [List.drop_eq_nil_iff.mpr hcon] at hdrop
      exact absurd hdrop (by simp)
    have hget_i : arr[i]? = some r := by
      have h0 := List.getElem?_drop arr i 0
      rw [hdrop] at h0
      simpa using h0.symm
    have hdrop' : arr.drop (i + 1) = rem' := by
      have h1 : arr.drop (i + 1) = (arr.drop i).drop 1 := by rw [List.drop_drop, Nat.add_comm]
      rw [h1, hdrop]
      rfl
    have hsorted' : rem'.Pairwise countryLe := (List.pairwise_cons.mp hsorted).2
    have htake1 : arr.take (i + 1) = arr.take i ++ [r] := by
      rw [List.take_succ, hget_i]
      rfl
    by_cases hcc : r.country = ""
    · by_cases hemp : r.cases.isEmpty
      · have hm0 : mergeInto arr [] r.cases = some arr := by simp [mergeInto, hemp]
        have hmach : reduceLoop (r :: rem') i "" arr [] = reduceLoop rem' (i + 1) "" arr [] := by
          simp only [reduceLoop, if_pos hcc, hm0]
        have hspec := ih (i + 1) arr hdrop' hsorted'
        simp only [reduceNone, if_pos hcc, hemp, if_pos trivial, if_true]
        cases hrn : reduceNone rem' with
        | none =>
          rw [hrn] at hspec
          rw [hmach]
          simp only [Option.map_none']
          exact hspec
        | some p =>
          obtain ⟨out, after'⟩ := p
          rw [hrn] at hspec
          obtain ⟨idxs2, hm2, hr2⟩ := hspec
          have harr2 : arr.take (i + 1) ++ after' = arr.take i ++ (r :: after') := by
            rw [htake1, List.append_assoc]
            rfl
          simp only [Option.map_some']
          refine ⟨idxs2, ?_, ?_⟩
          · rw [hmach, hm2, harr2]
          · rw [← harr2, hr2]
      · have hm0 : mergeInto arr [] r.cases = none := by simp [mergeInto, hemp]
        have hnone : reduceLoop (r :: rem') i "" arr [] = none := by
          simp only [reduceLoop, if_pos hcc, hm0]
        have hrn : reduceNone (r :: rem') = none := by
          simp only [reduceNone, if_pos hcc]
          rw [if_neg hemp]
        rw [hrn]
        exact hnone
    · have hmach : reduceLoop (r :: rem') i "" arr [] =
          reduceLoop rem' (i + 1) r.country arr [i] := by
        simp only [reduceLoop, if_neg hcc, List.nil_append]
      have hspec := reduceLoop_runs rem' (i + 1) r.country arr [i] i r hdrop'
        (by rfl) hget_i rfl (by omega)
        (by intro j hj; simp at hj; omega)
        (by simp)
        hsorted' ((List.pairwise_cons.mp hsorted).1)
      have hreq : reduceRuns (r :: rem') =
          match addSeq r.cases (rem'.takeWhile (fun s => s.country == r.country)) with
          | none => none
          | some cs =>
            match reduceRuns (rem'.dropWhile (fun s => s.country == r.country)) with
            | none => none
            | some (out, after) =>
              some ({ r with cases := cs } :: out,
                ({ r with cases := cs } :: rem'.takeWhile (fun s => s.country == r.country)) ++ after) := by
        simp only [reduceRuns]
      simp only [reduceNone, if_neg hcc, hreq]
      cases hseq : addSeq r.cases (rem'.takeWhile (fun s => s.country == r.country)) with
      | none =>
        rw [hseq] at hspec
        rw [hmach]
        exact hspec
      | some cs' =>
        rw [hseq] at hspec
        cases hrr : reduceRuns (rem'.dropWhile (fun s => s.country == r.country)) with
        | none =>
          rw [hrr] at hspec
          rw [hmach]
          exact hspec
        | some p =>
          obtain ⟨out', after'⟩ := p
          rw [hrr] at hspec
          obtain ⟨idxs2, hm2, hr2⟩ := hspec
          have hdecomp : arr = arr.take i ++ r :: rem' := by
            conv_lhs => rw [← List.take_append_drop i arr]
            rw [hdrop]
          have htakelen : (arr.take i).length = i := by
            rw [List.length_take]
            omega
          have hset_i : arr.set i { r with cases := cs' } =
              arr.take i ++ { r with cases := cs' } :: rem' := by
            conv_lhs => rw [hdecomp]
            rw [List.set_append_right _ _ (le_of_eq htakelen)]
            rw [htakelen, Nat.sub_self]
            rfl
          have htake_eq : (arr.set i { r with cases := cs' }).take
              (i + 1 + (rem'.takeWhile (fun s => s.country == r.country)).length) =
              arr.take i ++ { r with cases := cs' } ::
                rem'.takeWhile (fun s => s.country == r.country) := by
            rw [hset_i]
            have h1 : i + 1 + (rem'.takeWhile (fun s => s.country == r.country)).length =
                (arr.take i).length +
                  (1 + (rem'.takeWhile (fun s => s.country == r.country)).length) := by
              rw [htakelen]
              omega
            rw [h1, List.take_append]
            congr 1
            have h2 : (1 + (rem'.takeWhile (fun s => s.country == r.country)).length) =
                (rem'.takeWhile (fun s => s.country == r.country)).length + 1 := by omega
            rw [h2, List.take_succ_cons]
            congr 1
            exact take_length_takeWhile _ rem'
          have harr2 : (arr.set i { r with cases := cs' }).take
              (i + 1 + (rem'.takeWhile (fun s => s.country == r.country)).length) ++ after' =
              arr.take i ++ (({ r with cases := cs' } ::
                rem'.takeWhile (fun s => s.country == r.country)) ++ after') := by
            rw [htake_eq, List.append_assoc]
          refine ⟨idxs2, ?_, ?_⟩
          · rw [hmach, hm2, harr2]
          · rw [← harr2, hr2]
            simp

/- The two results of a reduce call, expressed through the pure run model. -/

theorem reduceEff_eq (d : data) :
    d.reduceEff = (reduceNone (sortCountryRecs d.records)).map
      (fun p => (⟨d.header, p.1⟩, ⟨d.header, p.2⟩)) := by
  have hspec := reduceLoop_none_state (sortCountryRecs d.records) 0 (sortCountryRecs d.records)
    (by simp) (sortCountryRecs_sorted d.records)
  have hdef : d.reduceEff = Option.map
      (fun p => (⟨d.header, (p.2).filterMap (fun l => (p.1)[l]?)⟩, ⟨d.header, p.1⟩))
      (reduceLoop (sortCountryRecs d.records) 0 "" (sortCountryRecs d.records) []) := rfl
  rw [hdef]
  cases hrn : reduceNone (sortCountryRecs d.records) with
  | none =>
    rw [hrn] at hspec
    rw [hspec]
    rfl
  | some p =>
    obtain ⟨out, after⟩ := p
    rw [hrn] at hspec
    obtain ⟨idxs2, hm2, hr2⟩ := hspec
    have h0 : (sortCountryRecs d.records).take 0 ++ after = after := by
      rw [List.take_zero, List.nil_append]
    rw [h0] at hm2 hr2
    rw [hm2]
    simp only [Option.map_some']
    rw [hr2]

theorem updCases_shape {arr arr2 : List record} {l : Nat} {cs : List Int}
    (h : updCases arr l cs = some arr2) : arr2.map recShape = arr.map recShape := by
  have he := updCases_eq arr l cs
  cases hg : arr[l]? with
  | none =>
    rw [hg] at he
    simp only [] at he
    rw [he] at h
    simp at h
  | some r =>
    rw [hg] at he
    simp only [] at he
    rw [he] at h
    cases ha : addCasesInto r.cases cs with
    | none =>
      rw [ha] at h
      simp at h
    | some t =>
      rw [ha] at h
      simp only [Option.map_some', Option.some_inj] at h
      rw [← h, List.map_set]
      have hshape : recShape { r with cases := t } = recShape r := rfl
      rw [hshape]
      apply list_set_of_getElem
      rw [List.getElem?_map, hg]
      rfl

theorem mergeInto_shape {arr arr2 : List record} {idxs : List Nat} {cs : List Int}
    (h : mergeInto arr idxs cs = some arr2) : arr2.map recShape = arr.map recShape := by
  unfold mergeInto at h
  cases hl : idxs.getLast? with
  | none =>
    rw [hl] at h
    by_cases he : cs.isEmpty
    · rw [if_pos he] at h
      rw [← Option.some_inj.mp h]
    · rw [if_neg he] at h
      simp at h
  | some l =>
    rw [hl] at h
    exact updCases_shape h

theorem reduceLoop_shape :
    ∀ (rem : List record) (i : Nat) (c : String) (arr : List record) (idxs : List Nat)
      {arr2 : List record} {idxs2 : List Nat},
      reduceLoop rem i c arr idxs = some (arr2, idxs2) →
      arr2.map recShape = arr.map recShape := by
  intro rem
  induction rem with
  | nil =>
    intro i c arr idxs arr2 idxs2 h
    simp only [reduceLoop, Option.some_inj, Prod.mk.injEq] at h
    rw [← h.1]
  | cons r rem' ih =>
    intro i c arr idxs arr2 idxs2 h
    by_cases hcc : r.country = c
    · simp only [reduceLoop, if_pos hcc] at h
      cases hm : mergeInto arr idxs r.cases with
      | none =>
        rw [hm] at h
        simp at h
      | some arrm =>
        rw [hm] at h
        have h1 := ih _ _ _ _ h
        rw [h1, mergeInto_shape hm]
    · simp only [reduceLoop, if_neg hcc] at h
      exact ih _ _ _ _ h

/- reduceNone on lists without the empty country name, and on already reduced
   lists. -/

theorem reduceNone_eq_runs (rs : List record) (hne : ∀ r ∈ rs, r.country ≠ "") :
    reduceNone rs = reduceRuns rs := by
  cases rs with
  | nil => simp [reduceNone, reduceRuns]
  | cons r rest =>
    have : r.country ≠ "" := hne r (by simp)
    simp only [reduceNone, if_neg this]

theorem reduceNone_char (L : Nat) : ∀ (rs out after : List record),
    rs.Pairwise countryLe → (∀ r ∈ rs, r.cases.length = L) →
    reduceNone rs = some (out, after) →
    ((out.map (fun r => r.country)).Pairwise (fun a b => a.toList < b.toList) ∧
     (∀ r ∈ out, r.country ≠ "") ∧ (∀ r ∈ out, r.cases.length = L)) := by
  intro rs
  induction rs with
  | nil =>
    intro out after _ _ h
    simp only [reduceNone, Option.some_inj, Prod.mk.injEq] at h
    rw [← h.1]
    simp
  | cons r rest ih =>
    intro out after hs hL h
    have hsrest : rest.Pairwise countryLe := (List.pairwise_cons.mp hs).2
    have hLrest : ∀ s ∈ rest, s.cases.length = L := fun s hs' => hL s (by simp [hs'])
    by_cases hcc : r.country = ""
    · simp only [reduceNone, if_pos hcc] at h
      by_cases hemp : r.cases.isEmpty
      · rw [if_pos hemp] at h
        cases hrn : reduceNone rest with
        | none =>
          rw [hrn] at h
          simp at h
        | some p =>
          obtain ⟨out2, after2⟩ := p
          rw [hrn] at h
          simp only [Option.map_some', Option.some_inj, Prod.mk.injEq] at h
          obtain ⟨h1, _⟩ := h
          rw [← h1]
          exact ih out2 after2 hsrest hLrest hrn
      · rw [if_neg hemp] at h
        exact absurd h (by simp)
    · simp only [reduceNone, if_neg hcc] at h
      obtain ⟨out', after', hred, hpair, hmem, hcase, _⟩ :=
        reduceRuns_char L (r :: rest).length (r :: rest) le_rfl hs hL
      rw [h] at hred
      have hinj : out = out' ∧ after = after' := by
        have := Option.some_inj.mp hred
        exact ⟨congrArg Prod.fst this, congrArg Prod.snd this⟩
      rw [hinj.1]
      refine ⟨hpair, ?_, fun r' hr' => (hcase r' hr').2⟩
      intro r' hr'
      have hc' : r'.country ∈ (r :: rest).map (fun s => s.country) :=
        (hmem r'.country).mp (List.mem_map.mpr ⟨r', hr', rfl⟩)
      simp only [List.map_cons, List.mem_cons, List.mem_map] at hc'
      rcases hc' with he | ⟨t, htm, hte⟩
      · rw [he]
        exact hcc
      · rw [← hte]
        exact country_ne_empty_of_le hcc ((List.pairwise_cons.mp hs).1 t htm)

theorem reduceRuns_distinct : ∀ (rs : List record),
    ((rs.map (fun r => r.country)).Pairwise (fun a b => a.toList < b.toList)) →
    reduceRuns rs = some (rs, rs) := by
  intro rs
  induction rs with
  | nil => simp [reduceRuns]
  | cons r rest ih =>
    intro hp
    have hp' : (rest.map (fun r => r.country)).Pairwise (fun a b => a.toList < b.toList) :=
      (List.pairwise_cons.mp hp).2
    have hlt : ∀ c ∈ rest.map (fun r => r.country), r.country.toList < c.toList :=
      (List.pairwise_cons.mp hp).1
    have htw : rest.takeWhile (fun s => s.country == r.country) = [] := by
      cases hr : rest with
      | nil => rfl
      | cons h t =>
        have hne : h.country ≠ r.country := by
          intro he
          have := hlt h.country (by rw [hr]; simp)
          rw [he] at this
          exact lt_irrefl _ this
        have : ¬ ((fun s => s.country == r.country) h) = true := by simp [hne]
        exact @List.takeWhile_cons_of_neg record (fun s => s.country == r.country) h t this
    have hdw : rest.dropWhile (fun s => s.country == r.country) = rest := by
      cases hr : rest with
      | nil => rfl
      | cons h t =>
        have hne : h.country ≠ r.country := by
          intro he
          have := hlt h.country (by rw [hr]; simp)
          rw [he] at this
          exact lt_irrefl _ this
        have : ¬ ((fun s => s.country == r.country) h) = true := by simp [hne]
        exact @List.dropWhile_cons_of_neg record (fun s => s.country == r.country) h t this
    have hreq : reduceRuns (r :: rest) =
        match addSeq r.cases (rest.takeWhile (fun s => s.country == r.country)) with
        | none => none
        | some cs =>
          match reduceRuns (rest.dropWhile (fun s => s.country == r.country)) with
          | none => none
          | some (out, after) =>
            some ({ r with cases := cs } :: out,
              ({ r with cases := cs } :: rest.takeWhile (fun s => s.country == r.country)) ++ after) := by
      simp only [reduceRuns]
    rw [hreq, htw, hdw, ih hp']
    have heta : ({ r with cases := r.cases } : record) = r := rfl
    simp [addSeq, heta]

/- Facts about the summation loop. -/

theorem vecAdd_getD {a b : List Int} (k : Nat) (ha : k < a.length) (hb : k < b.length) :
    (vecAdd a b).getD k 0 = a.getD k 0 + b.getD k 0 := by
  have hk : k < (vecAdd a b).length := by
    rw [vecAdd_length]
    omega
  rw [List.getD_eq_getElem?_getD, List.getD_eq_getElem?_getD, List.getD_eq_getElem?_getD,
    List.getElem?_eq_getElem hk, List.getElem?_eq_getElem ha, List.getElem?_eq_getElem hb]
  simp only [Option.getD_some]
  exact List.getElem_zipWith

theorem sumCases_getD (L : Nat) (rs : List record) (k : Nat)
    (hL : ∀ r ∈ rs, r.cases.length = L) (hk : k < L) :
    (sumCases L rs).getD k 0 = (rs.map (fun r => r.cases.getD k 0)).sum := by
  induction rs with
  | nil =>
    simp only [sumCases_nil, List.map_nil, List.sum_nil]
    rw [List.getD_eq_getElem?_getD, List.getElem?_replicate, if_pos hk]
    rfl
  | cons r rest ih =>
    have hr : r.cases.length = L := hL r (by simp)
    have hrest : ∀ s ∈ rest, s.cases.length = L := fun s hs => hL s (by simp [hs])
    rw [sumCases_cons, vecAdd_getD k (by omega) (by rw [sumCases_length L rest hrest]; omega),
      ih hrest]
    simp

theorem sumFold_shift : ∀ (rs : List record) (i : Int) (a : Int),
    rs.foldlM (fun s r => (casesAt r.cases i).map (fun v => s + v)) a =
      (sumFold rs i).map (fun v => a + v) := by
  intro rs
  induction rs with
  | nil =>
    intro i a
    simp [sumFold]
  | cons r rest ih =>
    intro i a
    rw [List.foldlM_cons]
    conv_rhs => rw [sumFold, List.foldlM_cons]
    cases hc : casesAt r.cases i with
    | none => simp [hc]
    | some v =>
      simp only [hc, Option.map_some', Option.bind_eq_bind, Option.some_bind]
      rw [ih i (a + v), ih i (0 + v)]
      cases sumFold rest i with
      | none => simp
      | some w =>
        simp only [Option.map_some', Option.some_inj]
        ring

theorem sumFold_cons_eq (r : record) (rest : List record) (i : Int) :
    sumFold (r :: rest) i =
      (casesAt r.cases i).bind (fun v => (sumFold rest i).map (fun w => v + w)) := by
  rw [sumFold, List.foldlM_cons]
  cases hc : casesAt r.cases i with
  | none => simp [hc]
  | some v =>
    simp only [hc, Option.map_some', Option.bind_eq_bind, Option.some_bind]
    rw [sumFold_shift rest i (0 + v)]
    cases sumFold rest i with
    | none => simp
    | some w =>
      simp only [Option.map_some', Option.some_inj]
      ring

theorem sumFold_some (L : Nat) (rs : List record) (i : Int)
    (hL : ∀ r ∈ rs, r.cases.length = L) (h0 : 0 ≤ i) (hi : i.toNat < L) :
    sumFold rs i = some ((sumCases L rs).getD i.toNat 0) := by
  induction rs with
  | nil =>
    simp only [sumFold, List.foldlM_nil]
    rw [sumCases_nil, List.getD_eq_getElem?_getD, List.getElem?_replicate, if_pos hi]
    rfl
  | cons r rest ih =>
    have hr : r.cases.length = L := hL r (by simp)
    have hrest : ∀ s ∈ rest, s.cases.length = L := fun s hs => hL s (by simp [hs])
    rw [sumFold_cons_eq]
    have hc : casesAt r.cases i = some (r.cases.getD i.toNat 0) := by
      rw [casesAt, if_neg (by omega)]
      rw [List.getElem?_eq_getElem (by omega : i.toNat < r.cases.length)]
      rw [List.getD_eq_getElem?_getD, List.getElem?_eq_getElem (by omega : i.toNat < r.cases.length)]
      rfl
    rw [hc, ih hrest]
    simp only [Option.bind_eq_bind, Option.some_bind, Option.map_some', Option.some_inj]
    rw [sumCases_cons, vecAdd_getD i.toNat (by omega)
      (by rw [sumCases_length L rest hrest]; omega)]

theorem sumFold_none_neg (rs : List record) (i : Int) (hne : rs ≠ []) (hi : i < 0) :
    sumFold rs i = none := by
  cases rs with
  | nil => exact absurd rfl hne
  | cons r rest =>
    rw [sumFold_cons_eq]
    rw [casesAt, if_pos hi]
    rfl

theorem sumFold_none_big (L : Nat) (rs : List record) (i : Int)
    (hL : ∀ r ∈ rs, r.cases.length = L) (hne : rs ≠ []) (hi : L ≤ i.toNat) (h0 : 0 ≤ i) :
    sumFold rs i = none := by
  cases rs with
  | nil => exact absurd rfl hne
  | cons r rest =>
    rw [sumFold_cons_eq]
    have hr : r.cases.length = L := hL r (by simp)
    have hc : casesAt r.cases i = none := by
      rw [casesAt, if_neg (by omega)]
      apply List.getElem?_eq_none
      omega
    rw [hc]
    rfl

theorem sumFold_congr (L : Nat) (rs1 rs2 : List record)
    (h1 : ∀ r ∈ rs1, r.cases.length = L) (h2 : ∀ r ∈ rs2, r.cases.length = L)
    (hmass : sumCases L rs1 = sumCases L rs2)
    (hnil : rs1 = [] ↔ rs2 = []) (i : Int) :
    sumFold rs1 i = sumFold rs2 i := by
  by_cases hn1 : rs1 = []
  · have hn2 : rs2 = [] := hnil.mp hn1
    rw [hn1, hn2]
  · have hn2 : rs2 ≠ [] := fun h => hn1 (hnil.mpr h)
    by_cases hneg : i < 0
    · rw [sumFold_none_neg rs1 i hn1 hneg, sumFold_none_neg rs2 i hn2 hneg]
    · push_neg at hneg
      by_cases hk : i.toNat < L
      · rw [sumFold_some L rs1 i h1 hneg hk, sumFold_some L rs2 i h2 hneg hk, hmass]
      · push_neg at hk
        rw [sumFold_none_big L rs1 i h1 hn1 hk hneg, sumFold_none_big L rs2 i h2 hn2 hk hneg]

/- Facts about mapM over Option. -/

theorem mapM_eq_none_of_mem {α β : Type _} (f : α → Option β) :
    ∀ (l : List α) (a : α), a ∈ l → f a = none → l.mapM f = none := by
  intro l
  induction l with
  | nil =>
    intro a ha
    simp at ha
  | cons x xs ih =>
    intro a ha hf
    rw [List.mapM_cons]
    rcases List.mem_cons.mp ha with he | hm
    · rw [← he, hf]
      rfl
    · cases hx : f x with
      | none => rfl
      | some b =>
        simp only [hx, Option.bind_eq_bind, Option.some_bind]
        rw [ih a hm hf]
        rfl

theorem mapM_length_option {α β : Type _} (f : α → Option β) :
    ∀ (l : List α) (l' : List β), l.mapM f = some l' → l'.length = l.length := by
  intro l
  induction l with
  | nil =>
    intro l' h
    simp only [List.mapM_nil] at h
    have : l' = [] := by
      cases l' with
      | nil => rfl
      | cons b bs => simp at h
    simp [this]
  | cons x xs ih =>
    intro l' h
    rw [List.mapM_cons] at h
    cases hx : f x with
    | none =>
      rw [hx] at h
      simp at h
    | some b =>
      rw [hx] at h
      cases hxs : xs.mapM f with
      | none =>
        rw [hxs] at h
        simp at h
      | some bs =>
        rw [hxs] at h
        simp only [Option.bind_eq_bind, Option.some_bind] at h
        have hb : l' = b :: bs := by
          have := h
          simpa using this.symm
        rw [hb]
        simp [ih bs hxs]

theorem mapM_mem_option {α β : Type _} (f : α → Option β) :
    ∀ (l : List α) (l' : List β), l.mapM f = some l' →
      ∀ b ∈ l', ∃ a ∈ l, f a = some b := by
  intro l
  induction l with
  | nil =>
    intro l' h b hb
    simp only [List.mapM_nil] at h
    cases l' with
    | nil => simp at hb
    | cons x xs => simp at h
  | cons x xs ih =>
    intro l' h b hb
    rw [List.mapM_cons] at h
    cases hx : f x with
    | none =>
      rw [hx] at h
      simp at h
    | some y =>
      rw [hx] at h
      cases hxs : xs.mapM f with
      | none =>
        rw [hxs] at h
        simp at h
      | some ys =>
        rw [hxs] at h
        simp only [Option.bind_eq_bind, Option.some_bind] at h
        have hl : l' = y :: ys := by simpa using h.symm
        rw [hl] at hb
        rcases List.mem_cons.mp hb with he | hm
        · exact ⟨x, by simp, by rw [hx, he]⟩
        · obtain ⟨a, ham, hfa⟩ := ih ys hxs b hm
          exact ⟨a, by simp [ham], hfa⟩

/- Facts about decode. -/

theorem decodeRow_spec {ai : String → Option Int} {af : String → Bool} {n : Nat}
    {row : List String} {r : record} (h : decodeRow ai af n row = some r) :
    r.cases.length = n - 4 ∧ 3 < row.length := by
  unfold decodeRow at h
  simp only [Option.bind_eq_bind, Option.bind_eq_some] at h
  obtain ⟨cs, hcs, h⟩ := h
  obtain ⟨pv, hpv, h⟩ := h
  obtain ⟨ct, hct, h⟩ := h
  obtain ⟨la, hla, h⟩ := h
  obtain ⟨lo, hlo, h⟩ := h
  have hrow3 : 3 < row.length := (List.getElem?_eq_some_iff.mp hlo).1
  by_cases hb : (af la && af lo) = true
  · rw [if_pos hb] at h
    have hr : r = ⟨pv, ct, la, lo, cs⟩ := by simpa using h.symm
    have hlen := mapM_length_option _ _ _ hcs
    rw [List.length_range] at hlen
    rw [hr]
    exact ⟨hlen, hrow3⟩
  · rw [if_neg hb] at h
    exact absurd h (by simp)

/- The top n report loop at a successful index range. -/

theorem topRows_go (s : List record) :
    ∀ (n : Nat), n ≤ s.length → (∀ r ∈ s, r.cases ≠ []) →
    (List.range n).mapM (fun i => do
      let rc ← s[i]?
      let v ← rc.cases.getLast?
      pure (rc.country, v)) =
      some ((s.take n).map (fun r => (r.country, r.cases.getLastD 0))) := by
  intro n
  induction n with
  | zero =>
    intro _ _
    rfl
  | succ n ihn =>
    intro hlen hc
    have hn : n < s.length := by omega
    rw [List.range_succ, List.mapM_append, ihn (by omega) hc]
    have hsn : s[n]? = some s[n] := List.getElem?_eq_getElem hn
    have hcne : s[n].cases ≠ [] := hc _ (List.getElem_mem hn)
    cases hgl : s[n].cases.getLast? with
    | none => exact absurd (List.getLast?_eq_none_iff.mp hgl) hcne
    | some v =>
      have hone : ([n] : List Nat).mapM (fun i => do
          let rc ← s[i]?
          let v ← rc.cases.getLast?
          pure (rc.country, v)) = some [(s[n].country, v)] := by
        rw [List.mapM_cons, hsn]
        simp only [Option.bind_eq_bind, Option.some_bind, hgl]
        rfl
      rw [hone]
      simp only [Option.bind_eq_bind, Option.some_bind, Option.some_inj]
      rw [List.take_succ, hsn]
      simp only [Option.toList_some, List.map_append, List.map_cons, List.map_nil]
      have hgld : s[n].cases.getLastD 0 = v := by
        rw [List.getLastD_eq_getLast?, hgl]
        rfl
      rw [hgld]
      rfl

/- What the filter scan finds in the mutated source: the group leader with the
   full country totals. -/

theorem reduceRuns_find (L : Nat) (fold : String → String → Bool) (c c0 : String) :
    ∀ (n : Nat) (rs : List record), rs.length ≤ n →
    rs.Pairwise countryLe →
    (∀ r ∈ rs, r.cases.length = L) →
    (∀ r ∈ rs, fold r.country c = true → r.country = c0) →
    c0 ∈ rs.map (fun r => r.country) →
    fold c0 c = true →
    ∃ out after r, reduceRuns rs = some (out, after) ∧
      after.find? (fun r => fold r.country c) = some r ∧
      r.country = c0 ∧
      r.cases = sumCases L (rs.filter (fun s => s.country == c0)) := by
  intro n
  induction n with
  | zero =>
    intro rs hlen _ _ _ hmem _
    have hnil : rs = [] := List.length_eq_zero.mp (Nat.le_zero.mp hlen)
    subst hnil
    simp at hmem
  | succ n ih =>
    intro rs hlen hs hL huniq hmem hfold
    cases rs with
    | nil => simp at hmem
    | cons r rest =>
      have hLr : r.cases.length = L := hL r (by simp)
      have hLrest : ∀ s ∈ rest, s.cases.length = L := fun s hs' => hL s (by simp [hs'])
      have hpair_rest : rest.Pairwise countryLe := (List.pairwise_cons.mp hs).2
      have hlb : ∀ s ∈ rest, countryLe r s := (List.pairwise_cons.mp hs).1
      have hruncountry : ∀ s ∈ rest.takeWhile (fun s => s.country == r.country),
          s.country = r.country := by
        intro s hsm
        have := List.mem_takeWhile_imp hsm
        simpa using this
      have hrunmem : ∀ s ∈ rest.takeWhile (fun s => s.country == r.country), s ∈ rest :=
        fun s hsm => (List.takeWhile_sublist _).subset hsm
      have hLrun : ∀ s ∈ rest.takeWhile (fun s => s.country == r.country),
          s.cases.length = L := fun s hsm => hLrest s (hrunmem s hsm)
      have hrest2mem : ∀ s ∈ rest.dropWhile (fun s => s.country == r.country), s ∈ rest :=
        fun s hsm => (List.dropWhile_sublist _).subset hsm
      have hLrest2 : ∀ s ∈ rest.dropWhile (fun s => s.country == r.country),
          s.cases.length = L := fun s hsm => hLrest s (hrest2mem s hsm)
      have hrest2sorted : (rest.dropWhile (fun s => s.country == r.country)).Pairwise countryLe :=
        hpair_rest.sublist (List.dropWhile_sublist _)
      have hlt2 : ∀ s ∈ rest.dropWhile (fun s => s.country == r.country),
          r.country.toList < s.country.toList := lt_all_dropWhile hpair_rest hlb
      have hne2 : ∀ s ∈ rest.dropWhile (fun s => s.country == r.country),
          s.country ≠ r.country := by
        intro s hsm he
        have := hlt2 s hsm
        rw [he] at this
        exact lt_irrefl _ this
      have hsplit : rest.takeWhile (fun s => s.country == r.country) ++
          rest.dropWhile (fun s => s.country == r.country) = rest :=
        List.takeWhile_append_dropWhile _ _
      have haddSeq : addSeq r.cases (rest.takeWhile (fun s => s.country == r.country)) =
          some (vecAdd r.cases (sumCases L (rest.takeWhile (fun s => s.country == r.country)))) :=
        addSeq_eq L r.cases _ hLr hLrun
      obtain ⟨out2, after2, hred2, _, _, _, _⟩ :=
        reduceRuns_char L (rest.dropWhile (fun s => s.country == r.country)).length
          (rest.dropWhile (fun s => s.country == r.country)) le_rfl hrest2sorted hLrest2
      set ld : record := { r with cases := vecAdd r.cases (sumCases L (rest.takeWhile (fun s => s.country == r.country))) } with hld
      have hldc : ld.country = r.country := by rw [hld]
      have hreq : reduceRuns (r :: rest) =
          some (ld :: out2, (ld :: rest.takeWhile (fun s => s.country == r.country)) ++ after2) := by
        simp only [reduceRuns]
        rw [haddSeq, hred2]
      by_cases hr0 : r.country = c0
      · have hfr : fold ld.country c = true := by
          rw [hldc, hr0]
          exact hfold
        have hfind : ((ld :: rest.takeWhile (fun s => s.country == r.country)) ++ after2).find?
            (fun s => fold s.country c) = some ld := by
          rw [List.cons_append]
          exact @List.find?_cons_of_pos record (fun s => fold s.country c) ld
            (rest.takeWhile (fun s => s.country == r.country) ++ after2) hfr
        have hfilter : (r :: rest).filter (fun s => s.country == c0) =
            r :: rest.takeWhile (fun s => s.country == r.country) := by
          rw [List.filter_cons]
          rw [if_pos (by simp [hr0])]
          congr 1
          conv_lhs => rw [← hsplit]
          rw [List.filter_append]
          have h1 : (rest.takeWhile (fun s => s.country == r.country)).filter
              (fun s => s.country == c0) = rest.takeWhile (fun s => s.country == r.country) :=
            List.filter_eq_self.mpr (fun s hsm => by simp [hruncountry s hsm, hr0])
          have h2 : (rest.dropWhile (fun s => s.country == r.country)).filter
              (fun s => s.country == c0) = [] := by
            apply List.filter_eq_nil_iff.mpr
            intro s hsm
            simp only [beq_iff_eq]
            rw [← hr0]
            exact hne2 s hsm
          rw [h1, h2, List.append_nil]
        refine ⟨_, _, _, hreq, hfind, by rw [hldc, hr0], ?_⟩
        show ld.cases = _
        rw [hfilter, sumCases_cons, hld]
      · have hfblock : ∀ s ∈ ld :: rest.takeWhile (fun s => s.country == r.country),
            fold s.country c = false := by
          intro s hsm
          have hsc : s.country = r.country := by
            rcases List.mem_cons.mp hsm with he | hm
            · rw [he, hldc]
            · exact hruncountry s hm
          by_contra hcon
          have htrue : fold s.country c = true := by
            cases hft : fold s.country c with
            | false => exact absurd hft hcon
            | true => rfl
          rw [hsc] at htrue
          exact hr0 (huniq r (by simp) htrue)
        have hmem2 : c0 ∈ (rest.dropWhile (fun s => s.country == r.country)).map
            (fun s => s.country) := by
          simp only [List.map_cons, List.mem_cons] at hmem
          rcases hmem with he | hm
          · exact absurd he.symm hr0
          · rw [← hsplit, List.map_append] at hm
            rcases List.mem_append.mp hm with h1 | h2
            · exfalso
              simp only [List.mem_map] at h1
              obtain ⟨s, hsm, hse⟩ := h1
              apply hr0
              rw [← hruncountry s hsm, hse]
            · exact h2
        have huniq2 : ∀ s ∈ rest.dropWhile (fun s => s.country == r.country),
            fold s.country c = true → s.country = c0 :=
          fun s hsm hf => huniq s (by simp [hrest2mem s hsm]) hf
        obtain ⟨out3, after3, r3, hred3, hfind3, hc3, hcase3⟩ :=
          ih (rest.dropWhile (fun s => s.country == r.country))
            (by
              have h1 : (rest.dropWhile (fun s => s.country == r.country)).length ≤ rest.length :=
                (List.dropWhile_sublist _).length_le
              have h2 : rest.length ≤ n := by simpa using Nat.le_of_succ_le_succ hlen
              omega)
            hrest2sorted hLrest2 huniq2 hmem2 hfold
        have hafter : after2 = after3 := by
          rw [hred2] at hred3
          have h := Option.some_inj.mp hred3
          have h2 := congrArg Prod.snd h
          simpa using h2
        have hfind : ((ld :: rest.takeWhile (fun s => s.country == r.country)) ++ after2).find?
            (fun s => fold s.country c) = some r3 := by
          rw [List.find?_append]
          have hnone : (ld :: rest.takeWhile (fun s => s.country == r.country)).find?
              (fun s => fold s.country c) = none :=
            List.find?_eq_none.mpr (fun s hsm => by simp [hfblock s hsm])
          rw [hnone, hafter]
          simp [hfind3]
        have hfilter : (r :: rest).filter (fun s => s.country == c0) =
            (rest.dropWhile (fun s => s.country == r.country)).filter
              (fun s => s.country == c0) := by
          rw [List.filter_cons]
          have hcf : ¬ (((fun s => s.country == c0) r) = true) := by
            simp only [beq_iff_eq]
            intro he
            exact hr0 he
          rw [if_neg hcf]
          conv_lhs => rw [← hsplit]
          rw [List.filter_append]
          have h1 : (rest.takeWhile (fun s => s.country == r.country)).filter
              (fun s => s.country == c0) = [] := by
            apply List.filter_eq_nil_iff.mpr
            intro s hsm
            simp only [beq_iff_eq]
            rw [hruncountry s hsm]
            intro he
            exact hr0 he
          rw [h1, List.nil_append]
        refine ⟨_, _, r3, hreq, hfind, hc3, ?_⟩
        rw [hfilter]
        exact hcase3

/- Unfolding helpers for reduce, filter, sum, and the descending sort. -/

theorem reduce_eq (d : data) :
    d.reduce = (reduceNone (sortCountryRecs d.records)).map (fun p => (⟨d.header, p.1⟩ : data)) := by
  rw [data.reduce, reduceEff_eq]
  cases reduceNone (sortCountryRecs d.records) <;> rfl

theorem reduceSrc_eq (d : data) :
    d.reduceSrc = (reduceNone (sortCountryRecs d.records)).map (fun p => (⟨d.header, p.2⟩ : data)) := by
  rw [data.reduceSrc, reduceEff_eq]
  cases reduceNone (sortCountryRecs d.records) <;> rfl

theorem data_sum_eq_cons (A : data) (r : record) (rest : List record)
    (h : A.records = r :: rest) (k : Int) :
    A.sum k = sumFold (r :: rest) (if k < 0 then (r.cases.length : Int) + k else k) := by
  unfold data.sum
  rw [h]
  by_cases hk : k < 0
  · simp [hk]
  · simp [hk]

theorem data_sum_eq_nil (A : data) (h : A.records = []) (k : Int) :
    A.sum k = if k < 0 then none else some 0 := by
  unfold data.sum
  rw [h]
  by_cases hk : k < 0
  · simp [hk]
  · simp [hk, sumFold]

theorem sumFold_isSome (rs : List record) (i : Int) (h0 : 0 ≤ i)
    (h : ∀ r ∈ rs, i.toNat < r.cases.length) : (sumFold rs i).isSome := by
  induction rs with
  | nil => rfl
  | cons r rest ih =>
    rw [sumFold_cons_eq]
    have hr : i.toNat < r.cases.length := h r (by simp)
    have hc : casesAt r.cases i = some r.cases[i.toNat] := by
      rw [casesAt, if_neg (by omega)]
      exact List.getElem?_eq_getElem hr
    rw [hc]
    have := ih (fun s hs => h s (by simp [hs]))
    cases hrest : sumFold rest i with
    | none =>
      rw [hrest] at this
      simp at this
    | some w => rfl

theorem sortDescRecs_perm (rs : List record) : (sortDescRecs rs).Perm rs := by
  cases rs with
  | nil => exact List.Perm.refl []
  | cons r0 rest => exact List.perm_insertionSort _ _

theorem data_sum_congr (L : Nat) (A B : data)
    (hA : ∀ r ∈ A.records, r.cases.length = L) (hB : ∀ r ∈ B.records, r.cases.length = L)
    (hmass : sumCases L A.records = sumCases L B.records)
    (hnil : A.records = [] ↔ B.records = []) :
    ∀ k : Int, A.sum k = B.sum k := by
  intro k
  rcases hA1 : A.records with _ | ⟨ra, resta⟩
  · have hB1 : B.records = [] := hnil.mp hA1
    rw [data_sum_eq_nil A hA1 k, data_sum_eq_nil B hB1 k]
  · have hBne : B.records ≠ [] := by
      intro hB0
      rw [hnil.mpr hB0] at hA1
      simp at hA1
    rcases hB2 : B.records with _ | ⟨rb, restb⟩
    · exact absurd hB2 hBne
    · rw [data_sum_eq_cons A ra resta hA1 k, data_sum_eq_cons B rb restb hB2 k]
      have hra : ra.cases.length = L := hA ra (by rw [hA1]; simp)
      have hrb : rb.cases.length = L := hB rb (by rw [hB2]; simp)
      have hsf : ∀ i : Int, sumFold (ra :: resta) i = sumFold (rb :: restb) i := by
        intro i
        apply sumFold_congr L
        · intro r hr
          apply hA
          rw [hA1]
          exact hr
        · intro r hr
          apply hB
          rw [hB2]
          exact hr
        · rw [← hA1, ← hB2]
          exact hmass
        · simp
      by_cases hneg : k < 0
      · rw [if_pos hneg, if_pos hneg, hra, hrb]
        exact hsf _
      · rw [if_neg hneg, if_neg hneg]
        exact hsf _

/- Concrete datasets used by witnesses and counterexamples. -/

def cexC1 : data := ⟨["h1"], [⟨"p", "", "0", "0", [1]⟩]⟩

def datW1 : data := ⟨["P", "C", "La", "Lo", "d1", "d2", "d3"],
  [⟨"p1", "B", "0", "0", [1, 2, 3]⟩, ⟨"p2", "A", "0", "0", [4, 5, 6]⟩,
   ⟨"p3", "A", "0", "0", [1, 1, 1]⟩]⟩

/-- Claim C1, counterexample to the original statement: a dataset whose single
record has the empty string as its country name and a case vector of length 1
satisfies the premises of the claim (all case vectors have equal length), yet
reduce does not return any dataset at all — the loop starts with c = "", sends
the record into the merge branch with rs empty, and the write rs[-1].cases[0]
panics. So no output with one record per distinct country exists. -/
theorem reduce_empty_country_cex :
    data.reduce cexC1 = none ∧ cexC1.records.all (fun r => r.cases.length == 1) = true := by
  constructor
  · rfl
  · rfl

/-- Claim C1 (corrected; the amendment adds the requirement that no record has
the empty string as its country name, the exact defect exhibited by
reduce_empty_country_cex; records with an empty country are otherwise dropped
or panic). For every dataset whose records all have case vectors of length L
and nonempty country names, reduce returns a dataset with the same header,
exactly one record per distinct country name of the input (its country list is
strictly ascending in byte order, and a country appears in the output iff it
appears in the input), where each output record holds as its case vector the
element-wise sum of the case vectors of all input records with exactly that
country name. -/
theorem reduce_one_record_per_country (d : data) (L : Nat)
    (hL : ∀ r ∈ d.records, r.cases.length = L)
    (hne : ∀ r ∈ d.records, r.country ≠ "") :
    ∃ R, d.reduce = some R ∧ R.header = d.header ∧
      (R.records.map (fun r => r.country)).Pairwise (fun a b => a.toList < b.toList) ∧
      (∀ c, c ∈ R.records.map (fun r => r.country) ↔ c ∈ d.records.map (fun r => r.country)) ∧
      ∀ r ∈ R.records, r.cases = sumCases L (d.records.filter (fun s => s.country == r.country)) := by
  have hperm := sortCountryRecs_perm d.records
  have hLS : ∀ r ∈ sortCountryRecs d.records, r.cases.length = L :=
    fun r hr => hL r (hperm.subset hr)
  have hneS : ∀ r ∈ sortCountryRecs d.records, r.country ≠ "" :=
    fun r hr => hne r (hperm.subset hr)
  obtain ⟨out, after, hred, hpair, hmem, hcase, _⟩ :=
    reduceRuns_char L (sortCountryRecs d.records).length (sortCountryRecs d.records)
      le_rfl (sortCountryRecs_sorted _) hLS
  refine ⟨⟨d.header, out⟩, ?_, rfl, hpair, ?_, ?_⟩
  · rw [reduce_eq, reduceNone_eq_runs _ hneS, hred]
    rfl
  · intro c
    rw [hmem c]
    constructor
    · intro hc
      exact (hperm.map (fun r => r.country)).subset hc
    · intro hc
      exact ((hperm.map (fun r => r.country)).symm).subset hc
  · intro r hr
    rw [(hcase r hr).1]
    exact sumCases_perm L (hperm.filter _)

/-- Claim C1 witness: the corrected theorem applied at a concrete three-record
dataset with two records for country A. -/
theorem reduce_one_record_per_country_witness :
    ∃ R, datW1.reduce = some R ∧ R.header = datW1.header ∧
      (R.records.map (fun r => r.country)).Pairwise (fun a b => a.toList < b.toList) ∧
      (∀ c, c ∈ R.records.map (fun r => r.country) ↔ c ∈ datW1.records.map (fun r => r.country)) ∧
      ∀ r ∈ R.records, r.cases = sumCases 3 (datW1.records.filter (fun s => s.country == r.country)) :=
  reduce_one_record_per_country datW1 3 (by decide) (by decide)

def cexC2 : data := ⟨["h1"], [⟨"p", "", "0", "0", [7]⟩]⟩

def datW2 : data := ⟨["P", "C", "La", "Lo", "d1", "d2", "d3"],
  [⟨"p1", "B", "0", "0", [1, 2, 3]⟩, ⟨"p2", "A", "0", "0", [4, 5, 6]⟩,
   ⟨"p3", "A", "0", "0", [1, 1, 1]⟩]⟩

/-- Claim C2, counterexample to the original statement: a dataset whose single
record has the empty string as country and the equal-length case vector [7]
has sum(D, 0) = 7, but reduce(D) panics (rs[-1]), so no reduced dataset exists
whose sum could equal it. -/
theorem reduce_sum_empty_country_cex :
    data.sum cexC2 0 = some 7 ∧ data.reduce cexC2 = none := by
  constructor
  · rfl
  · rfl

/-- Claim C2 (corrected; the amendment adds the requirement that no record has
the empty string as its country name, the defect exhibited by
reduce_sum_empty_country_cex). Under that restriction reduce preserves the
total at every day offset k — nonnegative indices and negative from-the-end
offsets alike, out-of-range offsets in both directions included: the reduced
and the source dataset yield the same sum outcome (value or panic) at every
k. -/
theorem reduce_preserves_sum (d : data) (L : Nat)
    (hL : ∀ r ∈ d.records, r.cases.length = L)
    (hne : ∀ r ∈ d.records, r.country ≠ "")
    (R : data) (hR : d.reduce = some R) :
    ∀ k : Int, R.sum k = d.sum k := by
  have hperm := sortCountryRecs_perm d.records
  have hLS : ∀ r ∈ sortCountryRecs d.records, r.cases.length = L :=
    fun r hr => hL r (hperm.subset hr)
  have hneS : ∀ r ∈ sortCountryRecs d.records, r.country ≠ "" :=
    fun r hr => hne r (hperm.subset hr)
  obtain ⟨out, after, hred, _, hmem, hcase, hmass⟩ :=
    reduceRuns_char L (sortCountryRecs d.records).length (sortCountryRecs d.records)
      le_rfl (sortCountryRecs_sorted _) hLS
  have hRval : R = ⟨d.header, out⟩ := by
    rw [reduce_eq, reduceNone_eq_runs _ hneS, hred] at hR
    exact (Option.some_inj.mp hR).symm
  apply data_sum_congr L
  · intro r hr
    rw [hRval] at hr
    exact (hcase r hr).2
  · exact hL
  · rw [hRval]
    show sumCases L out = sumCases L d.records
    rw [hmass]
    exact sumCases_perm L hperm
  · rw [hRval]
    show out = [] ↔ d.records = []
    constructor
    · intro ho
      cases hd : d.records with
      | nil => rfl
      | cons r rest =>
        exfalso
        have h1 : r.country ∈ d.records.map (fun s => s.country) := by
          rw [hd]
          simp
        have h2 : r.country ∈ (sortCountryRecs d.records).map (fun s => s.country) :=
          ((hperm.map (fun s => s.country)).symm).subset h1
        have h3 := (hmem r.country).mpr h2
        rw [ho] at h3
        simp at h3
    · intro hd
      have : sortCountryRecs d.records = [] := by
        rw [hd]
        rfl
      cases ho : out with
      | nil => rfl
      | cons r rest =>
        exfalso
        have h1 : r.country ∈ out.map (fun s => s.country) := by
          rw [ho]
          simp
        have h2 := (hmem r.country).mp h1
        rw [this] at h2
        simp at h2

/-- Claim C2 witness: the corrected theorem applied at a concrete dataset,
evaluated at day offset 0 and at the latest-day offset -1. -/
theorem reduce_preserves_sum_witness :
    (data.mk ["P", "C", "La", "Lo", "d1", "d2", "d3"]
      [⟨"p2", "A", "0", "0", [5, 6, 7]⟩, ⟨"p1", "B", "0", "0", [1, 2, 3]⟩]).sum 0 = datW2.sum 0 ∧
    (data.mk ["P", "C", "La", "Lo", "d1", "d2", "d3"]
      [⟨"p2", "A", "0", "0", [5, 6, 7]⟩, ⟨"p1", "B", "0", "0", [1, 2, 3]⟩]).sum (-1) =
      datW2.sum (-1) :=
  ⟨reduce_preserves_sum datW2 3 (by decide) (by decide) _ (by rfl) 0,
   reduce_preserves_sum datW2 3 (by decide) (by decide) _ (by rfl) (-1)⟩

def datW4 : data := ⟨["P", "C", "La", "Lo", "d1", "d2"],
  [⟨"p1", "B", "0", "0", [1, 2]⟩, ⟨"p2", "A", "0", "0", [4, 5]⟩,
   ⟨"p3", "A", "0", "0", [1, 1]⟩]⟩

/-- Claim C4 (confirmed): reduce is idempotent. For every dataset whose records
all have case vectors of one length, if reduce succeeds and returns R, then
reducing R again succeeds and returns R itself: R is sorted strictly by
country, so the second sort leaves it unchanged and the merge loop appends
every record without any further merging. -/
theorem reduce_idempotent (d : data) (L : Nat)
    (hL : ∀ r ∈ d.records, r.cases.length = L)
    (R : data) (hR : d.reduce = some R) : R.reduce = some R := by
  rw [reduce_eq] at hR
  cases hrn : reduceNone (sortCountryRecs d.records) with
  | none =>
    rw [hrn] at hR
    simp at hR
  | some p =>
    obtain ⟨out, after⟩ := p
    rw [hrn] at hR
    simp only [Option.map_some', Option.some_inj] at hR
    obtain ⟨hpair, hne_out, _⟩ := reduceNone_char L (sortCountryRecs d.records) out after
      (sortCountryRecs_sorted _) (fun r hr => hL r ((sortCountryRecs_perm _).subset hr)) hrn
    have hrec : R.records = out := by rw [← hR]
    have hsorted_le : out.Pairwise countryLe := by
      have hp := List.pairwise_map.mp hpair
      exact hp.imp (fun h => le_of_lt h)
    have hsortid : sortCountryRecs out = out := List.Sorted.insertionSort_eq hsorted_le
    have hrr : reduceRuns out = some (out, out) := reduceRuns_distinct out hpair
    rw [reduce_eq, hrec, hsortid, reduceNone_eq_runs out hne_out, hrr]
    simp only [Option.map_some', Option.some_inj]
    rw [← hR]

/-- Claim C4 witness: reducing the already-reduced form of a concrete dataset
returns it unchanged. -/
theorem reduce_idempotent_witness :
    (data.mk ["P", "C", "La", "Lo", "d1", "d2"]
      [⟨"p2", "A", "0", "0", [5, 6]⟩, ⟨"p1", "B", "0", "0", [1, 2]⟩]).reduce =
      some (data.mk ["P", "C", "La", "Lo", "d1", "d2"]
        [⟨"p2", "A", "0", "0", [5, 6]⟩, ⟨"p1", "B", "0", "0", [1, 2]⟩]) :=
  reduce_idempotent datW4 2 (by decide) _ (by rfl)

def cexC3 : data := ⟨["P", "C", "La", "Lo", "d1", "d2"],
  [⟨"p1", "B", "0", "0", [1, 2]⟩, ⟨"p2", "A", "0", "0", [3, 4]⟩,
   ⟨"p3", "A", "0", "0", [5, 6]⟩]⟩

def cexC3After : data := ⟨["P", "C", "La", "Lo", "d1", "d2"],
  [⟨"p2", "A", "0", "0", [8, 10]⟩, ⟨"p3", "A", "0", "0", [5, 6]⟩,
   ⟨"p1", "B", "0", "0", [1, 2]⟩]⟩

def datW3 : data := ⟨["h1", "h2", "h3", "h4", "d1"],
  [⟨"q1", "B", "0", "0", [1]⟩, ⟨"q2", "A", "0", "0", [2]⟩, ⟨"q3", "A", "0", "0", [3]⟩]⟩

def rw3 : data := ⟨["h1", "h2", "h3", "h4", "d1"],
  [⟨"q2", "A", "0", "0", [5]⟩, ⟨"q1", "B", "0", "0", [1]⟩]⟩

def sw3 : data := ⟨["h1", "h2", "h3", "h4", "d1"],
  [⟨"q2", "A", "0", "0", [5]⟩, ⟨"q3", "A", "0", "0", [3]⟩, ⟨"q1", "B", "0", "0", [1]⟩]⟩

/-- Claim C3, counterexample to the original statement: after reduce, the
source dataset is not unchanged. On a three-record dataset the source ends
re-sorted by country and with the first record of the A group holding the
accumulated group sums [8, 10] in place of its original [3, 4] — the struct
copies appended to rs share their cases slices with the sorted source. -/
theorem reduce_mutates_source_cex :
    data.reduceSrc cexC3 = some cexC3After ∧ cexC3After ≠ cexC3 := by
  constructor
  · rfl
  · decide

/-- Claim C3 (corrected: the code does mutate the source — reduce sorts
d.records in place and accumulates group sums into each group leader through
the aliased cases slices, as reduce_mutates_source_cex shows, and filter relies
on that mutation; the claim is amended to the frame that does hold). A reduce
call leaves the header of the source, its record count, and the
province/country/lat/long of every record intact: the records are merely permuted (by the sort)
and only cases fields are rewritten. -/
theorem reduce_source_frame (d R S : data) (h : d.reduceEff = some (R, S)) :
    S.header = d.header ∧ S.records.length = d.records.length ∧
    (S.records.map recShape).Perm (d.records.map recShape) := by
  have hdef : d.reduceEff = Option.map
      (fun p => (⟨d.header, (p.2).filterMap (fun l => (p.1)[l]?)⟩, ⟨d.header, p.1⟩))
      (reduceLoop (sortCountryRecs d.records) 0 "" (sortCountryRecs d.records) []) := rfl
  rw [hdef] at h
  cases hm : reduceLoop (sortCountryRecs d.records) 0 "" (sortCountryRecs d.records) [] with
  | none =>
    rw [hm] at h
    simp at h
  | some p =>
    obtain ⟨arr2, idxs2⟩ := p
    rw [hm] at h
    simp only [Option.map_some', Option.some_inj] at h
    have hS : S = ⟨d.header, arr2⟩ := by
      have h2 := congrArg Prod.snd h
      simpa using h2.symm
    have hshape := reduceLoop_shape _ _ _ _ _ hm
    refine ⟨by rw [hS], ?_, ?_⟩
    · rw [hS]
      show arr2.length = d.records.length
      have h1 : (arr2.map recShape).length = ((sortCountryRecs d.records).map recShape).length := by
        rw [hshape]
      simp only [List.length_map] at h1
      rw [h1]
      exact (sortCountryRecs_perm d.records).length_eq
    · rw [hS]
      show (arr2.map recShape).Perm (d.records.map recShape)
      rw [hshape]
      exact (sortCountryRecs_perm d.records).map recShape

/-- Claim C3 witness: the frame theorem applied at a concrete dataset whose
source-after value is spelled out. -/
theorem reduce_source_frame_witness :
    sw3.header = datW3.header ∧ sw3.records.length = datW3.records.length ∧
    (sw3.records.map recShape).Perm (datW3.records.map recShape) :=
  reduce_source_frame datW3 rw3 sw3 (by rfl)

/-- Claim C5 (confirmed): for every successfully decoded dataset, the header is
the first parsed row and header length = 4 + the case vector length of every
record. The integer and float column parsers are arbitrary (they are external
stdlib collaborators), so the invariant holds for the concrete strconv
behaviors as a special case. -/
theorem decode_header_invariant (ai : String → Option Int) (af : String → Bool)
    (tbl : List (List String)) (D : data) (h : decode ai af tbl = some D) :
    tbl.head? = some D.header ∧ ∀ r ∈ D.records, D.header.length = 4 + r.cases.length := by
  unfold decode at h
  cases tbl with
  | nil => simp at h
  | cons hdr rows =>
    simp only [] at h
    by_cases hall : ((hdr :: rows).all (fun row => row.length == hdr.length)) = true
    · rw [if_pos hall] at h
      cases hm : rows.mapM (decodeRow ai af hdr.length) with
      | none =>
        rw [hm] at h
        simp at h
      | some recs =>
        rw [hm] at h
        simp only [Option.map_some', Option.some_inj] at h
        constructor
        · rw [← h]
          rfl
        · intro r hr
          have hrrec : r ∈ recs := by
            rw [← h] at hr
            exact hr
          obtain ⟨row, hrow, hdec⟩ := mapM_mem_option _ _ _ hm r hrrec
          obtain ⟨hclen, hrow3⟩ := decodeRow_spec hdec
          have hroweq : row.length = hdr.length := by
            have := List.all_eq_true.mp hall row (by simp [hrow])
            simpa using this
          have hD : D.header = hdr := by rw [← h]
          rw [hD]
          omega
    · rw [if_neg hall] at h
      simp at h

/-- Claim C5 witness: a two-row table decoded with concrete column parsers,
whose record carries 2 = 6 - 4 case entries. -/
theorem decode_header_invariant_witness :
    ([["P", "C", "La", "Lo", "d1", "d2"], ["p", "A", "1.0", "2.0", "3", "4"]] :
        List (List String)).head? =
      some (data.mk ["P", "C", "La", "Lo", "d1", "d2"]
        [⟨"p", "A", "1.0", "2.0", [3, 4]⟩]).header ∧
    ∀ r ∈ (data.mk ["P", "C", "La", "Lo", "d1", "d2"]
        [⟨"p", "A", "1.0", "2.0", [3, 4]⟩]).records,
      (data.mk ["P", "C", "La", "Lo", "d1", "d2"]
        [⟨"p", "A", "1.0", "2.0", [3, 4]⟩]).header.length = 4 + r.cases.length :=
  decode_header_invariant atoi (fun _ => true)
    [["P", "C", "La", "Lo", "d1", "d2"], ["p", "A", "1.0", "2.0", "3", "4"]]
    (data.mk ["P", "C", "La", "Lo", "d1", "d2"] [⟨"p", "A", "1.0", "2.0", [3, 4]⟩])
    (by rfl)

theorem getD_last (l : List Int) (L : Nat) (hl : l.length = L) :
    l.getD (L - 1) 0 = l.getLastD 0 := by
  rw [List.getLastD_eq_getLast?, List.getLast?_eq_getElem?, List.getD_eq_getElem?_getD, hl]

def datW6 : data := ⟨["P", "C", "La", "Lo", "d1", "d2"],
  [⟨"p1", "B", "0", "0", [1, 9]⟩, ⟨"p2", "A", "0", "0", [4, 5]⟩,
   ⟨"p3", "A", "0", "0", [1, 1]⟩]⟩

/-- Claim C6 (confirmed): after reduce and the descending sort, the record
sequence is non-increasing in the latest-day count (adjacent pairs satisfy
a.cases[last] >= b.cases[last]), and the top n report reads exactly the first n
records of that sequence (the program runs it with n = 10); this holds whenever
n does not exceed the reduced record count. -/
theorem topN_sorted_desc (d : data) (L : Nat)
    (hL : ∀ r ∈ d.records, r.cases.length = L) (hpos : 1 ≤ L)
    (R : data) (hR : d.reduce = some R) :
    List.Chain' (fun a b => b.cases.getLastD 0 ≤ a.cases.getLastD 0) (sortDescRecs R.records) ∧
    ∀ n, n ≤ R.records.length →
      d.topRows n = some (((sortDescRecs R.records).take n).map
        (fun r => (r.country, r.cases.getLastD 0))) := by
  have hRlen : ∀ r ∈ R.records, r.cases.length = L := by
    rw [reduce_eq] at hR
    cases hrn : reduceNone (sortCountryRecs d.records) with
    | none =>
      rw [hrn] at hR
      simp at hR
    | some p =>
      obtain ⟨out, after⟩ := p
      rw [hrn] at hR
      simp only [Option.map_some', Option.some_inj] at hR
      obtain ⟨_, _, hlen⟩ := reduceNone_char L _ out after (sortCountryRecs_sorted _)
        (fun r hr => hL r ((sortCountryRecs_perm _).subset hr)) hrn
      intro r hr
      apply hlen
      rw [← hR] at hr
      exact hr
  have hsperm : (sortDescRecs R.records).Perm R.records := sortDescRecs_perm _
  have hslen : ∀ r ∈ sortDescRecs R.records, r.cases.length = L :=
    fun r hr => hRlen r (hsperm.subset hr)
  constructor
  · cases hRr : R.records with
    | nil => simp [sortDescRecs]
    | cons r0 rest =>
      have hk : r0.cases.length = L := hRlen r0 (by rw [hRr]; simp)
      have hsorted := List.sorted_insertionSort (descLe (r0.cases.length - 1)) (r0 :: rest)
      have hmemlen : ∀ r ∈ List.insertionSort (descLe (r0.cases.length - 1)) (r0 :: rest),
          r.cases.length = L := by
        intro r hr
        apply hRlen
        rw [hRr]
        exact (List.perm_insertionSort _ _).subset hr
      have hconv : (List.insertionSort (descLe (r0.cases.length - 1)) (r0 :: rest)).Pairwise
          (fun a b => b.cases.getLastD 0 ≤ a.cases.getLastD 0) := by
        apply hsorted.imp_of_mem
        intro a b ha hb hd
        have hda : a.cases.getD (L - 1) 0 = a.cases.getLastD 0 :=
          getD_last a.cases L (hmemlen a ha)
        have hdb : b.cases.getD (L - 1) 0 = b.cases.getLastD 0 :=
          getD_last b.cases L (hmemlen b hb)
        have hd' : b.cases.getD (L - 1) 0 ≤ a.cases.getD (L - 1) 0 := by
          rw [← hk]
          exact hd
        rw [hda, hdb] at hd'
        exact hd'
      exact hconv.chain'
  · intro n hn
    have hdef : d.topRows n = (d.reduce).bind (fun r =>
        (List.range n).mapM (fun i => do
          let rc ← (sortDescRecs r.records)[i]?
          let v ← rc.cases.getLast?
          pure (rc.country, v))) := rfl
    rw [hdef, hR]
    simp only [Option.bind_eq_bind, Option.some_bind]
    apply topRows_go
    · rw [hsperm.length_eq]
      exact hn
    · intro r hr
      have hlen := hslen r hr
      intro he
      rw [he] at hlen
      simp at hlen
      omega

/-- Claim C6 witness: the theorem applied at a concrete dataset whose reduced
form is A with latest count 6 and B with latest count 9. -/
theorem topN_sorted_desc_witness :
    List.Chain' (fun a b => b.cases.getLastD 0 ≤ a.cases.getLastD 0)
      (sortDescRecs (data.mk ["P", "C", "La", "Lo", "d1", "d2"]
        [⟨"p2", "A", "0", "0", [5, 6]⟩, ⟨"p1", "B", "0", "0", [1, 9]⟩]).records) ∧
    ∀ n, n ≤ (data.mk ["P", "C", "La", "Lo", "d1", "d2"]
        [⟨"p2", "A", "0", "0", [5, 6]⟩, ⟨"p1", "B", "0", "0", [1, 9]⟩]).records.length →
      datW6.topRows n = some (((sortDescRecs (data.mk ["P", "C", "La", "Lo", "d1", "d2"]
        [⟨"p2", "A", "0", "0", [5, 6]⟩, ⟨"p1", "B", "0", "0", [1, 9]⟩]).records).take n).map
          (fun r => (r.country, r.cases.getLastD 0))) :=
  topN_sorted_desc datW6 2 (by decide) (by decide) _ (by rfl)

def datW7 : data := ⟨["P", "C", "La", "Lo", "d1"], [⟨"p1", "B", "0", "0", [1]⟩]⟩

/-- Claim C7 (confirmed): the top n report is well defined only when n is at
most the reduced record count — whenever the reduced dataset has fewer than n
records, the records[i] read in the loop goes out of bounds (the program fixes
n = 10 with no clamping or bound check). -/
theorem topN_out_of_bounds (d R : data) (hR : d.reduce = some R)
    (n : Nat) (h : R.records.length < n) : d.topRows n = none := by
  have hdef : d.topRows n = (d.reduce).bind (fun r =>
      (List.range n).mapM (fun i => do
        let rc ← (sortDescRecs r.records)[i]?
        let v ← rc.cases.getLast?
        pure (rc.country, v))) := rfl
  rw [hdef, hR]
  simp only [Option.bind_eq_bind, Option.some_bind]
  apply mapM_eq_none_of_mem _ _ R.records.length (List.mem_range.mpr h)
  have hnone : (sortDescRecs R.records)[R.records.length]? = none := by
    apply List.getElem?_eq_none
    rw [(sortDescRecs_perm _).length_eq]
  simp [hnone]

/-- Claim C7 witness: on a dataset with a single country, the top-10 loop of
the program reads out of bounds. -/
theorem topN_out_of_bounds_witness : datW7.topRows 10 = none :=
  topN_out_of_bounds datW7 (data.mk ["P", "C", "La", "Lo", "d1"]
    [⟨"p1", "B", "0", "0", [1]⟩]) (by rfl) 10 (by decide)

def cexC9 : data := ⟨["h1"], [⟨"p", "", "0", "0", [1]⟩]⟩

def datW9 : data := ⟨["P", "C", "La", "Lo", "d1", "d2"],
  [⟨"p1", "US", "0", "0", [1, 2]⟩, ⟨"p2", "CA", "0", "0", [3, 4]⟩,
   ⟨"p3", "US", "0", "0", [5, 6]⟩]⟩

/-- Claim C9, counterexample to the original statement: with the single record
bearing the empty country name and case vector [1], the queried name "" occurs
under exactly one spelling and all case vectors have equal length, yet filter
panics — the reduce call inside it addresses rs[-1] — instead of returning a
found record. -/
theorem filter_empty_country_cex : data.filter eqFoldAscii cexC9 ("") = none := by
  rfl

/-- Claim C9 (corrected; the amendment adds the requirement that no record has
the empty string as its country name, the defect exhibited by
filter_empty_country_cex). filter answers from the country-reduced view: for
any case-insensitive equality fold (strings.EqualFold is external; the theorem
holds for every fold), if the queried name matches exactly the records spelled
c0, then filter finds it and returns found = true together with one record
whose case vector is the element-wise sum over every record of that country —
not an individual raw per-region row. This resolves the open question about
filter semantics: the in-place mutation done by the discarded reduce() call is
what the scan actually reads. -/
theorem filter_reduced_view (fold : String → String → Bool) (d : data) (L : Nat)
    (c c0 : String)
    (hL : ∀ r ∈ d.records, r.cases.length = L)
    (hne : ∀ r ∈ d.records, r.country ≠ "")
    (hmem : c0 ∈ d.records.map (fun r => r.country))
    (hfold : fold c0 c = true)
    (huniq : ∀ r ∈ d.records, fold r.country c = true → r.country = c0) :
    ∃ r, d.filter fold c = some (r, true) ∧ r.country = c0 ∧
      r.cases = sumCases L (d.records.filter (fun s => s.country == c0)) := by
  have hperm := sortCountryRecs_perm d.records
  have hLS : ∀ r ∈ sortCountryRecs d.records, r.cases.length = L :=
    fun r hr => hL r (hperm.subset hr)
  have hneS : ∀ r ∈ sortCountryRecs d.records, r.country ≠ "" :=
    fun r hr => hne r (hperm.subset hr)
  have hmemS : c0 ∈ (sortCountryRecs d.records).map (fun r => r.country) :=
    ((hperm.map (fun r => r.country)).symm).subset hmem
  have huniqS : ∀ r ∈ sortCountryRecs d.records, fold r.country c = true → r.country = c0 :=
    fun r hr hf => huniq r (hperm.subset hr) hf
  obtain ⟨out, after, rr, hred, hfind, hc0, hcase⟩ :=
    reduceRuns_find L fold c c0 (sortCountryRecs d.records).length (sortCountryRecs d.records)
      le_rfl (sortCountryRecs_sorted _) hLS huniqS hmemS hfold
  have heff : d.reduceEff = some (⟨d.header, out⟩, ⟨d.header, after⟩) := by
    rw [reduceEff_eq, reduceNone_eq_runs _ hneS, hred]
    rfl
  refine ⟨rr, ?_, hc0, ?_⟩
  · have hdef : d.filter fold c =
        match (⟨d.header, after⟩ : data).records.find? (fun r => fold r.country c) with
        | some r => some (r, true)
        | none => some (⟨"", "", "", "", []⟩, false) := by
      unfold data.filter
      rw [heff]
    rw [hdef]
    show (match after.find? (fun r => fold r.country c) with
      | some r => some (r, true)
      | none => some ((⟨"", "", "", "", []⟩ : record), false)) = some (rr, true)
    rw [hfind]
  · rw [hcase]
    exact sumCases_perm L (hperm.filter _)

/-- Claim C9 witness: the amended theorem applied with the ASCII fold at a
dataset holding US twice and CA once, queried as lowercase us. -/
theorem filter_reduced_view_witness :
    ∃ r, datW9.filter eqFoldAscii ("us") = some (r, true) ∧ r.country = "US" ∧
      r.cases = sumCases 2 (datW9.records.filter (fun s => s.country == "US")) :=
  filter_reduced_view eqFoldAscii datW9 2 ("us") ("US") (by decide) (by decide)
    (by decide) (by decide) (by decide)

def cexC10 : data := ⟨["P", "C", "La", "Lo", "d1"], []⟩

def datW10 : data := ⟨["P", "C", "La", "Lo", "d1", "d2"], [⟨"p", "A", "0", "0", [3, 4]⟩]⟩

/-- Claim C10 (confirmed): sum resolves a negative day offset against the case
vector of the first record — a panic when there are no records — and then reads
that column from every record, so it is well defined only when the dataset is
non-empty and every record is long enough; the printCases totals (sum(-1) and
the sum(-1) - sum(-2) delta) inherit the non-empty requirement. -/
theorem sum_requires_records (d : data) (k : Int) :
    (k < 0 → d.records = [] → d.sum k = none) ∧
    (d.records = [] → d.printCasesVals = none) ∧
    (∀ r0 rest, d.records = r0 :: rest → k < 0 →
      d.sum k = sumFold (r0 :: rest) ((r0.cases.length : Int) + k)) ∧
    (∀ r0 rest, d.records = r0 :: rest → k < 0 →
      0 ≤ (r0.cases.length : Int) + k →
      (∀ r ∈ d.records, ((r0.cases.length : Int) + k).toNat < r.cases.length) →
      (d.sum k).isSome) := by
  refine ⟨?_, ?_, ?_, ?_⟩
  · intro hneg hnil
    rw [data_sum_eq_nil d hnil k, if_pos hneg]
  · intro hnil
    unfold data.printCasesVals
    rw [data_sum_eq_nil d hnil (-1), if_pos (by omega)]
    rfl
  · intro r0 rest hrec hneg
    rw [data_sum_eq_cons d r0 rest hrec k, if_pos hneg]
  · intro r0 rest hrec hneg h0 hall
    rw [data_sum_eq_cons d r0 rest hrec k, if_pos hneg]
    apply sumFold_isSome _ _ h0
    intro r hr
    apply hall
    rw [hrec]
    exact hr

/-- Claim C10 witness: on the empty dataset, sum(-1) and the printCases totals
panic; on a one-record dataset with two days, sum(-1) is defined. -/
theorem sum_requires_records_witness :
    cexC10.sum (-1) = none ∧ cexC10.printCasesVals = none ∧ (datW10.sum (-1)).isSome := by
  refine ⟨?_, ?_, ?_⟩
  · exact (sum_requires_records cexC10 (-1)).1 (by decide) rfl
  · exact (sum_requires_records cexC10 (-1)).2.1 rfl
  · exact (sum_requires_records datW10 (-1)).2.2.2 ⟨"p", "A", "0", "0", [3, 4]⟩ [] rfl (by decide)
      (by decide) (by decide)
